import Mathlib

/-!
A verification development for the hole-containment oracles and the
pose-scoring pipeline of the icfpc-2021 solver (Rust sources under
`src/common/src/`).

Shallow embedding conventions:
* Rust `i64` coordinates are embedded as `Int` (the coordinates appearing in
  problems are tiny, so no wrap-around is reachable and `Int` is faithful).
* Rust `f64` values (stretch ratios) are embedded as `ℚ`.  All figure and hole
  coordinates are lattice points, so the squared distances, their quotients and
  the epsilon thresholds are exact rationals; `f64` computes those values
  exactly at the magnitudes involved, except for division by a zero squared
  length, which the theorems below exclude by hypothesis.
* A Rust panic (`unimplemented!`, out-of-range `unwrap`) is embedded as the
  distinguished outcome `ScoreResult.panicked`.
* Predicates of the external `geo` crate (polygon containment, segment/rect
  intersection, `relate`, `line_intersection`), which are not part of this
  repository, are modelled from the spec; each such definition carries a
  doc comment starting with `Modelled from the spec:`.
-/

namespace Icfpc

/-- `problem::Point`: a lattice point, `Point(pub i64, pub i64)`. -/
structure Point where
  x : Int
  y : Int
deriving DecidableEq, Repr

instance : Inhabited Point := ⟨⟨0, 0⟩⟩

/-- `problem::Edge`: a pair of vertex indices, `Edge(pub usize, pub usize)`. -/
structure Edge where
  fst : Nat
  snd : Nat
deriving DecidableEq, Repr

/-- `problem::Figure`. -/
structure Figure where
  edges : List Edge
  vertices : List Point
deriving DecidableEq, Repr

/-- `problem::ProblemBonusType`. -/
inductive ProblemBonusType where
  | BreakALeg
  | Globalist
  | Wallhack
  | Superflex
deriving DecidableEq, Repr

/-- `problem::ProblemBonus` (with `ProblemId` inlined as `Nat`). -/
structure ProblemBonus where
  position : Point
  bonus : ProblemBonusType
  problem : Nat
deriving DecidableEq, Repr

/-- `problem::Problem`. -/
structure Problem where
  hole : List Point
  figure : Figure
  epsilon : Nat
  bonuses : Option (List ProblemBonus)
deriving DecidableEq, Repr

/-- `problem::PoseBonus` (with `ProblemId` inlined as `Nat`). -/
inductive PoseBonus where
  | BreakALeg (problem : Nat) (edge : Edge)
  | Globalist (problem : Nat)
  | Wallhack (problem : Nat)
  | Superflex (problem : Nat)
deriving DecidableEq, Repr

/-- `problem::Pose`. -/
structure Pose where
  vertices : List Point
  bonuses : Option (List PoseBonus)
deriving DecidableEq, Repr

/-- `problem::PoseValidationError`.  The `f64` ratio sum is embedded as `ℚ`. -/
inductive PoseValidationError where
  | VerticeCountMismatch
  | BrokenEdgesFound (ratio_sum : ℚ) (broken_edges_count : Nat)
  | EdgesNotFitHole (n : Nat)
deriving DecidableEq, Repr

/-- The outcome of a scoring stage: `Ok`, `Err`, or a Rust panic
(`unimplemented!("BREAK_A_LEG ...")`, or `.min().unwrap()` on an empty list). -/
inductive ScoreResult (α : Type) where
  | ok (a : α)
  | err (e : PoseValidationError)
  | panicked
deriving DecidableEq, Repr

/-- `problem::distance`: squared euclidean distance between two lattice points. -/
def distance (p q : Point) : Int :=
  (p.x - q.x) * (p.x - q.x) + (p.y - q.y) * (p.y - q.y)

/-- `Problem::score_vertices_check_count`.  A `BreakALeg` bonus panics
(`unimplemented!`); otherwise the candidate must have exactly as many vertices
as the figure. -/
def score_vertices_check_count (p : Problem) (pose_vertices : List Point)
    (bonus : Option PoseBonus) : ScoreResult Unit :=
  match bonus with
  | some (.BreakALeg _ _) => .panicked
  | _ =>
    if p.figure.vertices.length ≠ pose_vertices.length then
      .err .VerticeCountMismatch
    else
      .ok ()

/-- The per-edge stretch ratio `((d_after as f64) / (d_before as f64) - 1).abs()`
computed inside `score_vertices_check_stretching`.  Out-of-range vertex indices
(a panic in Rust) are embedded with a default vertex; all theorems below use
well-formed index sets where this is irrelevant. -/
def ratioOf (p : Problem) (vs : List Point) (e : Edge) : ℚ :=
  let d_before := distance (p.figure.vertices.getD e.fst default)
      (p.figure.vertices.getD e.snd default)
  let d_after := distance (vs.getD e.fst default) (vs.getD e.snd default)
  |(d_after : ℚ) / (d_before : ℚ) - 1|

/-- One step of the non-`Globalist` stretch loop, acting on the state
`(broken_edges_count, allow_broken, ratio_sum)`. -/
def stretchStep (p : Problem) (vs : List Point) (st : Nat × Nat × ℚ) (e : Edge) :
    Nat × Nat × ℚ :=
  let r := ratioOf p vs e
  let rsum := st.2.2 + r
  if r > (p.epsilon : ℚ) / 1000000 then
    if st.2.1 > 0 then (st.1, st.2.1 - 1, rsum) else (st.1 + 1, st.2.1, rsum)
  else
    (st.1, st.2.1, rsum)

/-- `Problem::score_vertices_check_stretching`. -/
def score_vertices_check_stretching (p : Problem) (vs : List Point)
    (bonus : Option PoseBonus) : ScoreResult ℚ :=
  match bonus with
  | some (.Globalist _) =>
    let ratio_sum := p.figure.edges.foldl (fun acc e => acc + ratioOf p vs e) 0
    if ratio_sum > (p.figure.edges.length : ℚ) * (p.epsilon : ℚ) / 1000000 then
      .err (.BrokenEdgesFound ratio_sum 0)
    else
      .ok ratio_sum
  | some (.BreakALeg _ _) => .panicked
  | _ =>
    let allow0 : Nat := match bonus with | some (.Superflex _) => 1 | _ => 0
    let st := p.figure.edges.foldl (stretchStep p vs) (0, allow0, 0)
    if st.1 > 0 then .err (.BrokenEdgesFound st.2.2 st.1) else .ok st.2.2

/-- One step of the containment loop of `Problem::score_vertices_check_hole`,
acting on the state `(outer_vertex, edges_out_of_hole_count)`.  The oracle is
any `InvalidEdge` implementation, embedded as a boolean function. -/
def holeStep (oracle : Point → Point → Bool) (vs : List Point)
    (bonus : Option PoseBonus) (st : Option Nat × Nat) (e : Edge) :
    Option Nat × Nat :=
  let v_start := vs.getD e.fst default
  let v_end := vs.getD e.snd default
  if oracle v_start v_end then
    match bonus with
    | some (.Wallhack _) =>
      match st.1 with
      | none =>
        let contains_start := !(oracle v_start v_start)
        let contains_end := !(oracle v_end v_end)
        if !contains_start && contains_end then (some e.fst, st.2)
        else if contains_start && !contains_end then (some e.snd, st.2)
        else (none, st.2 + 1)
      | some idx =>
        if idx = e.fst ∨ idx = e.snd then st else (st.1, st.2 + 1)
    | _ => (st.1, st.2 + 1)
  else
    st

/-- `Problem::score_vertices_check_hole`. -/
def score_vertices_check_hole (p : Problem) (oracle : Point → Point → Bool)
    (vs : List Point) (bonus : Option PoseBonus) : ScoreResult Unit :=
  let st := p.figure.edges.foldl (holeStep oracle vs bonus) (none, 0)
  if st.2 > 0 then .err (.EdgesNotFitHole st.2) else .ok ()

/-- The dislikes sum of `Problem::score_vertices`: for every hole vertex the
minimum squared distance to any candidate vertex (`.min().unwrap()`, hence
`none` — a panic — when the hole is non-empty but the candidate list is
empty), summed over the hole. -/
def dislikes (hole vs : List Point) : Option Int :=
  hole.foldr
    (fun h acc =>
      match (vs.map (fun v => distance h v)).min?, acc with
      | some d, some a => some (d + a)
      | _, _ => none)
    (some 0)

/-- `Problem::score_vertices`: count check, then containment check, then
stretch check, then the dislikes sum, short-circuiting on the first `Err`. -/
def score_vertices (p : Problem) (oracle : Point → Point → Bool)
    (vs : List Point) (bonus : Option PoseBonus) : ScoreResult Int :=
  match score_vertices_check_count p vs bonus with
  | .panicked => .panicked
  | .err e => .err e
  | .ok _ =>
    match score_vertices_check_hole p oracle vs bonus with
    | .panicked => .panicked
    | .err e => .err e
    | .ok _ =>
      match score_vertices_check_stretching p vs bonus with
      | .panicked => .panicked
      | .err e => .err e
      | .ok _ =>
        match dislikes p.hole vs with
        | some d => .ok d
        | none => .panicked

/-- `Problem::score_pose`: scores a pose, using the first pose bonus if any. -/
def score_pose (p : Problem) (oracle : Point → Point → Bool) (pose : Pose) :
    ScoreResult Int :=
  score_vertices p oracle pose.vertices (pose.bonuses.bind List.head?)

/-! ### The exact polygon oracle

`impl InvalidEdge for geo::Polygon<f64>` (problem.rs) answers whether the
segment is fully contained in (or on the boundary of) the hole polygon, via
the external `geo` crate's containment predicates. -/

/-- The closed edge list of the hole ring: consecutive hole vertices plus the
implicit closing edge from the last vertex back to the first. -/
def polyEdges (hole : List Point) : List (Point × Point) :=
  match hole with
  | [] => []
  | h :: _ => hole.zip (hole.tail ++ [h])

/-- Twice the signed area of the triangle `p q r` (orientation predicate). -/
def orient (p q r : Point) : Int :=
  (q.x - p.x) * (r.y - p.y) - (q.y - p.y) * (r.x - p.x)

/-- Is `q` on the closed segment from `u` to `v`? -/
def onSegment (q u v : Point) : Bool :=
  orient u v q = 0 &&
    min u.x v.x ≤ q.x && q.x ≤ max u.x v.x &&
    min u.y v.y ≤ q.y && q.y ≤ max u.y v.y

/-- Does the horizontal ray from `q` towards `+x` cross the edge `u v`?
(Standard integer-only crossing test used by ray-casting containment.) -/
def rayCrosses (q u v : Point) : Bool :=
  (decide (u.y > q.y) != decide (v.y > q.y)) &&
    (let d := v.y - u.y
     if d > 0 then (q.x - u.x) * d < (v.x - u.x) * (q.y - u.y)
     else (q.x - u.x) * d > (v.x - u.x) * (q.y - u.y))

/-- The smallest corner of the hole's bounding box. -/
def holeMin (hole : List Point) : Point :=
  match hole with
  | [] => ⟨0, 0⟩
  | h :: t => t.foldl (fun acc p => ⟨min acc.x p.x, min acc.y p.y⟩) h

/-- The largest corner of the hole's bounding box. -/
def holeMax (hole : List Point) : Point :=
  match hole with
  | [] => ⟨0, 0⟩
  | h :: t => t.foldl (fun acc p => ⟨max acc.x p.x, max acc.y p.y⟩) h

/-- Is `q` inside the hole's bounding box (inclusive)? -/
def inHoleBBox (hole : List Point) (q : Point) : Bool :=
  (holeMin hole).x ≤ q.x && q.x ≤ (holeMax hole).x &&
    (holeMin hole).y ≤ q.y && q.y ≤ (holeMax hole).y

/-- Modelled from the spec: point-in-polygon containment of the external `geo`
crate ("present either inside polygon or on its boundaries", problem.rs's
`Contains<Point>` and the glossary's "boundary touching allowed"), as a
bounding-box reject followed by an on-boundary test or ray-casting parity. -/
def pointInPoly (hole : List Point) (q : Point) : Bool :=
  inHoleBBox hole q &&
    ((polyEdges hole).any (fun e => onSegment q e.1 e.2) ||
      ((polyEdges hole).countP (fun e => rayCrosses q e.1 e.2)) % 2 = 1)

/-- Do the open segments `u v` and `a b` cross transversally (a proper
crossing, each segment's endpoints strictly on opposite sides of the other)? -/
def properCross (u v a b : Point) : Bool :=
  orient u v a * orient u v b < 0 && orient a b u * orient a b v < 0

/-- Modelled from the spec: the `ExactPolygonOracle`
(`impl InvalidEdge for geo::Polygon<f64>`, external `geo` crate predicates):
the edge is invalid unless the segment is fully contained in (or on the
boundary of) the hole polygon — both endpoints contained and no proper
crossing with any boundary edge. -/
def exact_is_edge_invalid (hole : List Point) (a b : Point) : Bool :=
  !(pointInPoly hole a && pointInPoly hole b &&
    (polyEdges hole).all (fun e => !properCross e.1 e.2 a b))

/-- `Problem::import_pose`: scores the pose against the problem's own hole
polygon (the exact oracle), then unconditionally replaces the figure's
vertices with the pose's.  Embedded in state-passing style: the result is the
returned score together with the mutated problem. -/
def import_pose (p : Problem) (pose : Pose) : ScoreResult Int × Problem :=
  (score_pose p (exact_is_edge_invalid p.hole) pose,
   { p with figure := { p.figure with vertices := pose.vertices } })

/-! ### Concrete fixtures used by counterexamples and witnesses -/

/-- The square hole `(0,0),(10,0),(10,10),(0,10)` of the spec's scenario A. -/
def sqHole : List Point := [⟨0, 0⟩, ⟨10, 0⟩, ⟨10, 10⟩, ⟨0, 10⟩]

/-- Scenario-A problem: one figure edge `(0,0)-(10,0)`, epsilon 0. -/
def probC3 : Problem :=
  { hole := sqHole,
    figure := { edges := [⟨0, 1⟩], vertices := [⟨0, 0⟩, ⟨10, 0⟩] },
    epsilon := 0, bonuses := none }

/-- A candidate that keeps the vertex count but both stretches the single edge
far beyond epsilon and moves its second endpoint out of the hole. -/
def candC3 : List Point := [⟨0, 0⟩, ⟨0, 50⟩]

/-! ### C3: stage order of the scoring entry point -/

/-- C3 (counterexample): on a candidate whose vertex count matches but that
both breaks the edge-length tolerance (the stretch stage alone reports
`BrokenEdgesFound`) and has an edge out of the hole, `score_vertices` returns
`EdgesNotFitHole`, not `BrokenEdgesFound` — the containment check runs before
the stretch check, contrary to the claimed order. -/
theorem c3_counterexample :
    score_vertices probC3 (exact_is_edge_invalid sqHole) candC3 none =
        .err (.EdgesNotFitHole 1) ∧
    score_vertices_check_count probC3 candC3 none = .ok () ∧
    score_vertices_check_stretching probC3 candC3 none =
        .err (.BrokenEdgesFound 24 1) ∧
    score_vertices_check_hole probC3 (exact_is_edge_invalid sqHole) candC3 none =
        .err (.EdgesNotFitHole 1) := by
  refine ⟨by decide, by decide, ?_, by decide⟩
  norm_num [score_vertices_check_stretching, stretchStep, ratioOf, distance, probC3, candC3]

/-- C3 (amended): `score_vertices` runs its four stages in the order count
check, containment check, stretch check, dislikes computation, short-circuiting
on the first failure; in particular a candidate failing both the stretch and
the containment stage yields the containment stage's error. -/
theorem c3_amended :
    (∀ (p : Problem) (oracle : Point → Point → Bool) (vs : List Point)
        (bonus : Option PoseBonus) (e : PoseValidationError),
      score_vertices_check_count p vs bonus = .err e →
      score_vertices p oracle vs bonus = .err e) ∧
    (∀ (p : Problem) (oracle : Point → Point → Bool) (vs : List Point)
        (bonus : Option PoseBonus) (e : PoseValidationError),
      score_vertices_check_count p vs bonus = .ok () →
      score_vertices_check_hole p oracle vs bonus = .err e →
      score_vertices p oracle vs bonus = .err e) ∧
    (∀ (p : Problem) (oracle : Point → Point → Bool) (vs : List Point)
        (bonus : Option PoseBonus) (e : PoseValidationError),
      score_vertices_check_count p vs bonus = .ok () →
      score_vertices_check_hole p oracle vs bonus = .ok () →
      score_vertices_check_stretching p vs bonus = .err e →
      score_vertices p oracle vs bonus = .err e) ∧
    (∀ (p : Problem) (oracle : Point → Point → Bool) (vs : List Point)
        (bonus : Option PoseBonus) (r : ℚ) (d : Int),
      score_vertices_check_count p vs bonus = .ok () →
      score_vertices_check_hole p oracle vs bonus = .ok () →
      score_vertices_check_stretching p vs bonus = .ok r →
      dislikes p.hole vs = some d →
      score_vertices p oracle vs bonus = .ok d) := by
  refine ⟨?_, ?_, ?_, ?_⟩ <;> intro p oracle vs bonus
  · intro e h; unfold score_vertices; rw [h]
  · intro e h1 h2; unfold score_vertices; rw [h1, h2]
  · intro e h1 h2 h3; unfold score_vertices; rw [h1, h2, h3]
  · intro r d h1 h2 h3 h4; unfold score_vertices; rw [h1, h2, h3, h4]

/-- C3 (witness): the containment-before-stretch short-circuit applied at the
concrete both-failures candidate. -/
theorem c3_amended_witness :
    score_vertices probC3 (exact_is_edge_invalid sqHole) candC3 none =
      .err (.EdgesNotFitHole 1) :=
  c3_amended.2.1 probC3 (exact_is_edge_invalid sqHole) candC3 none _
    (by decide) (by decide)

/-! ### C10: `import_pose` mutates unconditionally and scores the old figure -/

/-- C10: `import_pose` replaces `figure.vertices` with the pose's vertices
unconditionally — the mutation happens regardless of whether the returned
score is an error — and the returned score is `score_pose` evaluated on the
problem as it was before the replacement (the original figure). -/
theorem import_pose_spec (p : Problem) (pose : Pose) :
    (import_pose p pose).2 =
      { p with figure := { p.figure with vertices := pose.vertices } } ∧
    (import_pose p pose).1 =
      score_vertices p (exact_is_edge_invalid p.hole) pose.vertices
        (pose.bonuses.bind List.head?) :=
  ⟨rfl, rfl⟩

/-! ### C7: the Globalist pooled stretch budget -/

/-- Folding `+ f e` over a list starting from `a` is `a` plus the mapped sum. -/
theorem foldl_add_eq_sum (f : Edge → ℚ) (l : List Edge) (a : ℚ) :
    l.foldl (fun acc e => acc + f e) a = a + (l.map f).sum := by
  induction l generalizing a with
  | nil => simp
  | cons e t ih => simp [ih, List.sum_cons]; ring

/-- C7: under the Globalist bonus no single edge is individually forbidden:
the stretch check succeeds (returning the ratio sum) exactly when the sum over
all figure edges of `|after/before - 1|` is at most
`edge_count * epsilon / 1000000`, and otherwise fails with `BrokenEdgesFound`
carrying that ratio sum (and a zero broken-edge count).  The hypothesis
excludes degenerate original edges, where the `f64` division of the code
leaves the exact-rational model. -/
theorem c7_globalist (p : Problem) (vs : List Point) (pid : Nat)
    (hnz : ∀ e ∈ p.figure.edges,
      distance (p.figure.vertices.getD e.fst default)
        (p.figure.vertices.getD e.snd default) ≠ 0) :
    (score_vertices_check_stretching p vs (some (.Globalist pid)) =
        .ok ((p.figure.edges.map (ratioOf p vs)).sum) ↔
      (p.figure.edges.map (ratioOf p vs)).sum ≤
        (p.figure.edges.length : ℚ) * (p.epsilon : ℚ) / 1000000) ∧
    ((p.figure.edges.map (ratioOf p vs)).sum >
        (p.figure.edges.length : ℚ) * (p.epsilon : ℚ) / 1000000 →
      score_vertices_check_stretching p vs (some (.Globalist pid)) =
        .err (.BrokenEdgesFound ((p.figure.edges.map (ratioOf p vs)).sum) 0)) := by
  clear hnz
  have hfold : score_vertices_check_stretching p vs (some (.Globalist pid)) =
      (if ((p.figure.edges.map (ratioOf p vs)).sum : ℚ) >
          (p.figure.edges.length : ℚ) * (p.epsilon : ℚ) / 1000000 then
        .err (.BrokenEdgesFound ((p.figure.edges.map (ratioOf p vs)).sum) 0)
      else .ok ((p.figure.edges.map (ratioOf p vs)).sum)) := by
    unfold score_vertices_check_stretching
    rw [foldl_add_eq_sum, zero_add]
  rw [hfold]
  split_ifs with hgt
  · exact ⟨⟨fun h => absurd h (by simp), fun hle => absurd hgt (not_lt.mpr hle)⟩,
      fun _ => rfl⟩
  · exact ⟨⟨fun _ => not_lt.mp hgt, fun _ => rfl⟩, fun h => absurd h hgt⟩

/-- The spec's scenario-C problem: two edges of squared length 100 and a
pooled budget of `2 * 250000 / 1000000 = 1/2`. -/
def probC7 : Problem :=
  { hole := sqHole,
    figure := { edges := [⟨0, 1⟩, ⟨1, 2⟩], vertices := [⟨0, 0⟩, ⟨10, 0⟩, ⟨20, 0⟩] },
    epsilon := 250000, bonuses := none }

/-- Scenario-C candidate: one edge stretched to ratio `3/10` (over the
single-edge threshold `1/4`) and one compressed to ratio `1/10`, summing to
`2/5`, within the pooled budget. -/
def candC7 : List Point := [⟨0, 0⟩, ⟨7, 9⟩, ⟨10, 18⟩]

/-- C7 (witness): the Globalist rule applied at the concrete scenario-C
instance: the pooled check passes with ratio sum `2/5` even though one edge
individually exceeds the threshold. -/
theorem c7_globalist_witness :
    score_vertices_check_stretching probC7 candC7 (some (.Globalist 0)) =
      .ok ((probC7.figure.edges.map (ratioOf probC7 candC7)).sum) ∧
    (probC7.figure.edges.map (ratioOf probC7 candC7)).sum = 2 / 5 ∧
    ratioOf probC7 candC7 ⟨0, 1⟩ = 3 / 10 :=
  ⟨(c7_globalist probC7 candC7 0 (by decide)).1.mpr
      (by norm_num [probC7, candC7, ratioOf, distance, abs_of_nonneg]),
    by norm_num [probC7, candC7, ratioOf, distance, abs_of_nonneg],
    by norm_num [probC7, candC7, ratioOf, distance, abs_of_nonneg]⟩

/-! ### C6: the Wallhack containment relaxation -/

/-- Once `outer_vertex` is established, the containment loop never changes it. -/
theorem wallhack_outer_mono (oracle : Point → Point → Bool) (vs : List Point)
    (pid : Nat) (l : List Edge) (st : Option Nat × Nat) (o : Nat)
    (h : st.1 = some o) :
    (l.foldl (holeStep oracle vs (some (.Wallhack pid))) st).1 = some o := by
  induction l generalizing st with
  | nil => simpa using h
  | cons e t ih =>
    rw [List.foldl_cons]
    apply ih
    obtain ⟨o1, c⟩ := st
    simp only at h
    subst h
    simp only [holeStep]
    repeat' split
    all_goals simp_all

/-- The out-of-hole edge counter never decreases along the containment loop. -/
theorem hole_cnt_mono (oracle : Point → Point → Bool) (vs : List Point)
    (bonus : Option PoseBonus) (l : List Edge) (st : Option Nat × Nat) :
    st.2 ≤ (l.foldl (holeStep oracle vs bonus) st).2 := by
  induction l generalizing st with
  | nil => simp
  | cons e t ih =>
    rw [List.foldl_cons]
    refine le_trans ?_ (ih (holeStep oracle vs bonus st e))
    obtain ⟨o1, c⟩ := st
    simp only [holeStep]
    repeat' split
    all_goals simp

/-- If the Wallhack containment loop ends with a zero counter, then every
oracle-invalid edge of the list touches the final `outer_vertex` index. -/
theorem wallhack_invalid_touches (oracle : Point → Point → Bool)
    (vs : List Point) (pid : Nat) (l : List Edge) (st : Option Nat × Nat)
    (hfin : (l.foldl (holeStep oracle vs (some (.Wallhack pid))) st).2 = 0) :
    ∀ e ∈ l, oracle (vs.getD e.fst default) (vs.getD e.snd default) = true →
      ∃ o, (l.foldl (holeStep oracle vs (some (.Wallhack pid))) st).1 = some o ∧
        (e.fst = o ∨ e.snd = o) := by
  induction l generalizing st with
  | nil => intro e he; exact absurd he (List.not_mem_nil e)
  | cons a t ih =>
    intro e he hinv
    rw [List.foldl_cons] at hfin ⊢
    rcases List.mem_cons.mp he with rfl | het
    · -- the head edge itself is invalid; analyze the step it took
      obtain ⟨o1, c⟩ := st
      rcases o1 with _ | idx
      · -- no outer vertex yet
        cases hcs : oracle (vs.getD e.fst default) (vs.getD e.fst default) <;>
          cases hce : oracle (vs.getD e.snd default) (vs.getD e.snd default)
        · -- both endpoints in the hole: counted, contradicting the zero count
          have hstep : holeStep oracle vs (some (.Wallhack pid)) (none, c) e =
              (none, c + 1) := by
            simp only [holeStep, hinv, hcs, hce, Bool.not_true, Bool.not_false,
              Bool.and_true, Bool.and_false, Bool.true_and, Bool.false_and,
              Bool.and_self, if_true, ite_true, Bool.false_eq_true, if_false,
              ite_false]
          rw [hstep] at hfin
          have := hole_cnt_mono oracle vs (some (.Wallhack pid)) t (none, c + 1)
          omega
        · -- only the end is out: the step records `e.snd`
          have hstep : holeStep oracle vs (some (.Wallhack pid)) (none, c) e =
              (some e.snd, c) := by
            simp only [holeStep, hinv, hcs, hce, Bool.not_true, Bool.not_false,
              Bool.and_true, Bool.and_false, Bool.true_and, Bool.false_and,
              Bool.and_self, if_true, ite_true, Bool.false_eq_true, if_false,
              ite_false]
          rw [hstep] at hfin ⊢
          exact ⟨e.snd, wallhack_outer_mono _ _ _ _ _ _ rfl, Or.inr rfl⟩
        · -- only the start is out: the step records `e.fst`
          have hstep : holeStep oracle vs (some (.Wallhack pid)) (none, c) e =
              (some e.fst, c) := by
            simp only [holeStep, hinv, hcs, hce, Bool.not_true, Bool.not_false,
              Bool.and_true, Bool.and_false, Bool.true_and, Bool.false_and,
              Bool.and_self, if_true, ite_true, Bool.false_eq_true, if_false,
              ite_false]
          rw [hstep] at hfin ⊢
          exact ⟨e.fst, wallhack_outer_mono _ _ _ _ _ _ rfl, Or.inl rfl⟩
        · -- both endpoints out: counted, contradicting the zero count
          have hstep : holeStep oracle vs (some (.Wallhack pid)) (none, c) e =
              (none, c + 1) := by
            simp only [holeStep, hinv, hcs, hce, Bool.not_true, Bool.not_false,
              Bool.and_true, Bool.and_false, Bool.true_and, Bool.false_and,
              Bool.and_self, if_true, ite_true, Bool.false_eq_true, if_false,
              ite_false]
          rw [hstep] at hfin
          have := hole_cnt_mono oracle vs (some (.Wallhack pid)) t (none, c + 1)
          omega
      · -- an outer vertex `idx` is already established
        by_cases htouch : idx = e.fst ∨ idx = e.snd
        · have hstep : holeStep oracle vs (some (.Wallhack pid)) (some idx, c) e =
              (some idx, c) := by
            simp only [holeStep, hinv, htouch, if_true, ite_true, if_false,
              ite_false]
          rw [hstep] at hfin ⊢
          refine ⟨idx, wallhack_outer_mono _ _ _ _ _ _ rfl, ?_⟩
          rcases htouch with h | h
          · exact Or.inl h.symm
          · exact Or.inr h.symm
        · have hstep : holeStep oracle vs (some (.Wallhack pid)) (some idx, c) e =
              (some idx, c + 1) := by
            simp only [holeStep, hinv, htouch, if_true, ite_true, if_false,
              ite_false]
          rw [hstep] at hfin
          have := hole_cnt_mono oracle vs (some (.Wallhack pid)) t (some idx, c + 1)
          omega
    · exact ih (holeStep oracle vs (some (.Wallhack pid)) st a) hfin e het hinv

/-- A Wallhack fixture: two edges chaining vertex 1 to vertex 0 and
vertex 2 to vertex 1. -/
def probC6 : Problem :=
  { hole := sqHole,
    figure := { edges := [⟨1, 0⟩, ⟨2, 1⟩],
                vertices := [⟨5, 5⟩, ⟨5, 5⟩, ⟨5, 5⟩] },
    epsilon := 0, bonuses := none }

/-- A candidate for `probC6` with vertex 0 inside the hole and vertices 1, 2
outside at different positions, vertex 2 adjacent to vertex 1. -/
def vsC6 : List Point := [⟨5, 5⟩, ⟨20, 20⟩, ⟨30, 30⟩]

/-- The spec's scenario-B fixture extended with a fourth vertex: edges from
vertex 2 to the two inside vertices 0 and 1, plus an edge from vertex 3 to
vertex 0. -/
def probC6b : Problem :=
  { hole := sqHole,
    figure := { edges := [⟨2, 0⟩, ⟨2, 1⟩, ⟨3, 0⟩],
                vertices := [⟨5, 5⟩, ⟨5, 5⟩, ⟨5, 5⟩, ⟨5, 5⟩] },
    epsilon := 0, bonuses := none }

/-- A candidate for `probC6b`: vertices 0, 1 inside, vertex 2 outside
(exempted), vertex 3 outside at a different position and not adjacent to
vertex 2. -/
def vsC6b : List Point := [⟨5, 5⟩, ⟨5, 6⟩, ⟨20, 20⟩, ⟨30, 30⟩]

/-- C6 (counterexample): a Wallhack candidate with TWO distinct,
differently-positioned out-of-hole vertex indices (`1` at `(20,20)` and `2` at
`(30,30)`, the second adjacent to the first) passes the containment check —
refuting "permits exactly one vertex index to lie outside the hole". -/
theorem c6_counterexample :
    score_vertices_check_hole probC6 (exact_is_edge_invalid sqHole) vsC6
        (some (.Wallhack 0)) = .ok () ∧
    exact_is_edge_invalid sqHole ⟨20, 20⟩ ⟨20, 20⟩ = true ∧
    exact_is_edge_invalid sqHole ⟨30, 30⟩ ⟨30, 30⟩ = true ∧
    (⟨20, 20⟩ : Point) ≠ ⟨30, 30⟩ := by
  refine ⟨by decide, by decide, by decide, by decide⟩

/-- C6 (amended): under Wallhack, if the containment check passes then all
oracle-invalid edges share one common vertex index — the exemption established
by the first invalid edge with exactly one out-of-hole endpoint; edges between
that index and a second out-of-hole vertex adjacent to it are also excused,
but an invalid edge not touching the exempt index (e.g. one reaching a second,
non-adjacent out-of-hole vertex) fails the check with `EdgesNotFitHole`. -/
theorem c6_wallhack_amended :
    (∀ (p : Problem) (oracle : Point → Point → Bool) (vs : List Point) (pid : Nat),
      score_vertices_check_hole p oracle vs (some (.Wallhack pid)) = .ok () →
      ∃ o : Nat, ∀ e ∈ p.figure.edges,
        oracle (vs.getD e.fst default) (vs.getD e.snd default) = true →
          e.fst = o ∨ e.snd = o) ∧
    score_vertices_check_hole probC6b (exact_is_edge_invalid sqHole) vsC6b
        (some (.Wallhack 0)) = .err (.EdgesNotFitHole 1) := by
  constructor
  · intro p oracle vs pid hok
    have hfin : (p.figure.edges.foldl
        (holeStep oracle vs (some (.Wallhack pid))) (none, 0)).2 = 0 := by
      by_contra hne
      unfold score_vertices_check_hole at hok
      rw [if_pos (Nat.pos_of_ne_zero hne)] at hok
      exact ScoreResult.noConfusion hok
    rcases hout : (p.figure.edges.foldl
        (holeStep oracle vs (some (.Wallhack pid))) (none, 0)).1 with _ | o
    · refine ⟨0, fun e he hinv => ?_⟩
      obtain ⟨o', ho', _⟩ :=
        wallhack_invalid_touches oracle vs pid p.figure.edges (none, 0) hfin e he hinv
      rw [hout] at ho'
      exact Option.noConfusion ho'
    · refine ⟨o, fun e he hinv => ?_⟩
      obtain ⟨o', ho', hto⟩ :=
        wallhack_invalid_touches oracle vs pid p.figure.edges (none, 0) hfin e he hinv
      rw [hout] at ho'
      cases Option.some.inj ho'
      exact hto
  · decide

/-- C6 (witness): the shared-exempt-index property applied at the concrete
two-adjacent-outer-vertices candidate of the counterexample. -/
theorem c6_wallhack_amended_witness :
    ∃ o : Nat, ∀ e ∈ probC6.figure.edges,
      exact_is_edge_invalid sqHole (vsC6.getD e.fst default)
          (vsC6.getD e.snd default) = true →
        e.fst = o ∨ e.snd = o :=
  c6_wallhack_amended.1 probC6 (exact_is_edge_invalid sqHole) vsC6 0 (by decide)

/-! ### C8: scoring self-consistency on the untouched figure -/

/-- The containment loop leaves its state unchanged when no edge is invalid. -/
theorem foldl_holeStep_no_invalid (oracle : Point → Point → Bool)
    (vs : List Point) (bonus : Option PoseBonus) (l : List Edge)
    (st : Option Nat × Nat)
    (h : ∀ e ∈ l, oracle (vs.getD e.fst default) (vs.getD e.snd default) = false) :
    l.foldl (holeStep oracle vs bonus) st = st := by
  induction l generalizing st with
  | nil => rfl
  | cons e t ih =>
    rw [List.foldl_cons]
    have hstep : holeStep oracle vs bonus st e = st := by
      simp only [holeStep, h e (List.mem_cons_self e t), Bool.false_eq_true,
        if_false, ite_false]
    rw [hstep]
    exact ih st (fun e' he' => h e' (List.mem_cons_of_mem _ he'))

/-- The stretch loop accumulates the ratio sum and counts nothing when no
ratio exceeds the threshold. -/
theorem foldl_stretchStep_no_broken (p : Problem) (vs : List Point)
    (l : List Edge) (a : Nat) (s : ℚ)
    (h : ∀ e ∈ l, ¬ ratioOf p vs e > (p.epsilon : ℚ) / 1000000) :
    l.foldl (stretchStep p vs) (0, a, s) =
      (0, a, s + (l.map (ratioOf p vs)).sum) := by
  induction l generalizing s with
  | nil => simp
  | cons e t ih =>
    rw [List.foldl_cons]
    have hstep : stretchStep p vs (0, a, s) e = (0, a, s + ratioOf p vs e) := by
      simp only [stretchStep]
      rw [if_neg (h e (List.mem_cons_self e t))]
    rw [hstep, ih _ (fun e' he' => h e' (List.mem_cons_of_mem _ he'))]
    simp [List.sum_cons]
    ring

/-- A nondegenerate edge has stretch ratio zero on the untouched figure. -/
theorem ratioOf_self (p : Problem) (e : Edge)
    (h : distance (p.figure.vertices.getD e.fst default)
      (p.figure.vertices.getD e.snd default) ≠ 0) :
    ratioOf p p.figure.vertices e = 0 := by
  unfold ratioOf
  dsimp only
  rw [div_self (by exact_mod_cast h), sub_self, abs_zero]

/-- The stretch check passes on the untouched figure (nondegenerate edges). -/
theorem check_stretching_self (p : Problem)
    (hnz : ∀ e ∈ p.figure.edges, distance (p.figure.vertices.getD e.fst default)
      (p.figure.vertices.getD e.snd default) ≠ 0) :
    score_vertices_check_stretching p p.figure.vertices none =
      .ok ((p.figure.edges.map (ratioOf p p.figure.vertices)).sum) := by
  have hz : ∀ e ∈ p.figure.edges,
      ¬ ratioOf p p.figure.vertices e > (p.epsilon : ℚ) / 1000000 := by
    intro e he
    rw [ratioOf_self p e (hnz e he)]
    exact not_lt.mpr (by positivity)
  unfold score_vertices_check_stretching
  dsimp only
  rw [foldl_stretchStep_no_broken p p.figure.vertices p.figure.edges 0 0 hz]
  norm_num

/-- The count check passes on the untouched figure. -/
theorem check_count_self (p : Problem) :
    score_vertices_check_count p p.figure.vertices none = .ok () := by
  unfold score_vertices_check_count
  simp

/-- The dislikes fold as the spec's sum of per-hole-vertex minima (defined
whenever the candidate list is non-empty). -/
theorem dislikes_eq_sum (hole vs : List Point) (hv : vs ≠ []) :
    dislikes hole vs =
      some ((hole.map
        (fun h => ((vs.map (fun v => distance h v)).min?.getD 0))).sum) := by
  induction hole with
  | nil => simp [dislikes]
  | cons h t ih =>
    obtain ⟨m, hm⟩ : ∃ m, (vs.map (fun v => distance h v)).min? = some m := by
      cases hmin : (vs.map (fun v => distance h v)).min? with
      | none =>
        exact absurd (List.map_eq_nil_iff.mp (List.min?_eq_none_iff.mp hmin)) hv
      | some m => exact ⟨m, rfl⟩
    have hstep : dislikes (h :: t) vs =
        (match (vs.map (fun v => distance h v)).min?, dislikes t vs with
          | some d, some a => some (d + a)
          | _, _ => none) := rfl
    rw [hstep, hm, ih]
    simp [hm]

/-- C8: whenever the untouched figure already satisfies the epsilon tolerance
(nondegenerate original edges stretch by ratio zero) and hole containment
(every figure edge valid under the oracle), scoring the figure's own vertices
with no bonus succeeds and returns the dislikes value: the sum over every
hole vertex of the minimum squared distance from that hole vertex to any
candidate vertex. -/
theorem c8_self_consistency (p : Problem) (oracle : Point → Point → Bool)
    (hv : p.figure.vertices ≠ [])
    (hnz : ∀ e ∈ p.figure.edges, distance (p.figure.vertices.getD e.fst default)
      (p.figure.vertices.getD e.snd default) ≠ 0)
    (hok : ∀ e ∈ p.figure.edges, oracle (p.figure.vertices.getD e.fst default)
      (p.figure.vertices.getD e.snd default) = false) :
    score_vertices p oracle p.figure.vertices none =
      .ok ((p.hole.map
        (fun h => ((p.figure.vertices.map (fun v => distance h v)).min?.getD 0))).sum) := by
  have h1 := check_count_self p
  have h2 : score_vertices_check_hole p oracle p.figure.vertices none = .ok () := by
    unfold score_vertices_check_hole
    rw [foldl_holeStep_no_invalid oracle p.figure.vertices none p.figure.edges
      (none, 0) hok]
    rfl
  have h3 := check_stretching_self p hnz
  have h4 := dislikes_eq_sum p.hole p.figure.vertices hv
  unfold score_vertices
  rw [h1, h2, h3, h4]

/-- C8 (witness): the scenario-A problem scored at its own figure: the figure
edge `(0,0)-(10,0)` lies in the square hole, ratios are zero, and the dislikes
sum is `0 + 0 + 100 + 100 = 200`. -/
theorem c8_self_consistency_witness :
    score_vertices probC3 (exact_is_edge_invalid sqHole)
      probC3.figure.vertices none = .ok 200 := by
  have h := c8_self_consistency probC3 (exact_is_edge_invalid sqHole)
    (by decide) (by decide) (by decide)
  rw [h]
  decide

/-! ### The Bloom oracle (`geo_hole_bloom.rs`)

The `k` seeded `seahash` functions are random-seeded external hashes; they are
embedded as an arbitrary list of hash functions `BloomKey → Nat` (the spec's
guarantees are claimed "by construction", independent of the hash choice). -/

/-- `geo_hole_bloom::CreateError`. -/
inductive BloomCreateError where
  | NoPointsInHole
deriving DecidableEq, Repr

/-- `geo_hole_bloom::BloomKey`: the order-normalized pair of edge endpoints. -/
structure BloomKey where
  edge_min : Point
  edge_max : Point
deriving DecidableEq, Repr

/-- The derived lexicographic `<` of `problem::Point` (derive `PartialOrd, Ord`
on `Point(i64, i64)`). -/
def pointLt (a b : Point) : Bool :=
  a.x < b.x || (a.x = b.x && a.y < b.y)

/-- `BloomKey::new`: normalize the endpoint pair by the lexicographic order. -/
def BloomKey.new (edge_a edge_b : Point) : BloomKey :=
  if pointLt edge_a edge_b then ⟨edge_a, edge_b⟩ else ⟨edge_b, edge_a⟩

/-- `GeoHoleBloom`: the bit array is embedded as the list of set bit indices
(`bits.contains i` models `bits[i]`), together with its length `bits_count`. -/
structure GeoHoleBloom where
  bits : List Nat
  bits_count : Nat
  field_min : Point
  field_max : Point
  hash_fns : List (BloomKey → Nat)
  geo_hole : List Point

/-- The lattice point enumerated by `GeoHoleBloom::new` for a linear position:
`Point(position % field_width, position / field_width)`.  Note the source adds
no `field_min` offset. -/
def bloomEnumPoint (field_width : Int) (position : Int) : Point :=
  ⟨position % field_width, position / field_width⟩

/-- `GeoHoleBloom::new`: precompute, for every ordered pair of enumerated
lattice points, whether the connecting segment is invalid, and set the hashed
bit positions of each invalid key. -/
def GeoHoleBloom.new (hash_fns : List (BloomKey → Nat)) (p : Problem) :
    Except BloomCreateError GeoHoleBloom :=
  if p.hole = [] then .error .NoPointsInHole
  else
    let field_min := holeMin p.hole
    let field_max := holeMax p.hole
    let field_width := field_max.x - field_min.x + 1
    let field_height := field_max.y - field_min.y + 1
    let field_area := field_width * field_height
    let sq_field_area := field_area * field_area
    let bits_count := (sq_field_area / 10).toNat
    let bits := (List.range sq_field_area.toNat).flatMap (fun sq_position =>
      let position_a := (sq_position : Int) / field_area
      let position_b := (sq_position : Int) % field_area
      let point_a := bloomEnumPoint field_width position_a
      let point_b := bloomEnumPoint field_width position_b
      let key := BloomKey.new point_a point_b
      if exact_is_edge_invalid p.hole point_a point_b then
        hash_fns.map (fun h => h key % bits_count)
      else
        [])
    .ok { bits := bits, bits_count := bits_count, field_min := field_min,
          field_max := field_max, hash_fns := hash_fns, geo_hole := p.hole }

/-- `impl InvalidEdge for GeoHoleBloom`: boundary-range reject, then probe the
`k` bit positions — any unset bit answers `false` (valid); if all are set,
fall back to the exact polygon oracle. -/
def GeoHoleBloom.is_edge_invalid (g : GeoHoleBloom) (edge_from edge_to : Point) :
    Bool :=
  if edge_from.x < g.field_min.x || edge_from.x > g.field_max.x ||
      edge_from.y < g.field_min.y || edge_from.y > g.field_max.y then
    true
  else if edge_to.x < g.field_min.x || edge_to.x > g.field_max.x ||
      edge_to.y < g.field_min.y || edge_to.y > g.field_max.y then
    true
  else
    let key := BloomKey.new edge_from edge_to
    if g.hash_fns.all (fun h => g.bits.contains (h key % g.bits_count)) then
      exact_is_edge_invalid g.geo_hole edge_from edge_to
    else
      false

/-! ### C1 and C4: the Bloom construction misses translated holes

`GeoHoleBloom::new` enumerates the lattice points
`(position % field_width, position / field_width)` — coordinates in
`[0, field_width) × [0, field_height)` — without adding the `field_min`
offset, while the query accepts any pair inside `[field_min, field_max]`.
For a hole not anchored at the origin the precomputed invalid-pair set covers
the wrong points, so an in-range invalid pair can probe an unset bit and be
reported valid: a false negative, disagreeing with the exact oracle. -/

/-- A small triangular hole anchored away from the origin. -/
def triHole : List Point := [⟨10, 10⟩, ⟨12, 10⟩, ⟨10, 12⟩]

/-- The problem around `triHole`. -/
def triProblem : Problem :=
  { hole := triHole,
    figure := { edges := [⟨0, 1⟩], vertices := [⟨10, 10⟩, ⟨11, 10⟩] },
    epsilon := 0, bonuses := none }

/-- The normalized key of the in-range query pair `(11,12)-(12,12)` (both
endpoints inside the hole's bounding box, segment outside the triangle). -/
def triKey : BloomKey := BloomKey.new ⟨11, 12⟩ ⟨12, 12⟩

/-- A concrete hash function standing in for one random-seeded `seahash`:
it sends the query key to bit 0 and every other key to bit 1. -/
def triHash : BloomKey → Nat := fun k => if k = triKey then 0 else 1

/-- The query result of a built Bloom oracle (construction errors answer
`true`, unreachable for a non-empty hole). -/
def bloomQueryResult (r : Except BloomCreateError GeoHoleBloom)
    (a b : Point) : Bool :=
  match r with
  | .ok g => g.is_edge_invalid a b
  | .error _ => true

/-- Is the bit probed by hash `h` for key `k` set in the built Bloom oracle? -/
def bloomBitSet (r : Except BloomCreateError GeoHoleBloom)
    (h : BloomKey → Nat) (k : BloomKey) : Bool :=
  match r with
  | .ok g => g.bits.contains (h k % g.bits_count)
  | .error _ => false

/-- C1: the three backends do NOT agree on every in-range pair: for the
translated triangular hole, the Bloom oracle built with the hash `triHash`
answers `false` (valid) on the in-range pair `(11,12)-(12,12)` while the
exact polygon oracle answers `true` (invalid) — construction enumerated only
origin-anchored points, so the pair's bit was never set. -/
theorem c1_bloom_exact_disagree :
    (GeoHoleBloom.new [triHash] triProblem).isOk = true ∧
    bloomQueryResult (GeoHoleBloom.new [triHash] triProblem)
        ⟨11, 12⟩ ⟨12, 12⟩ = false ∧
    exact_is_edge_invalid triHole ⟨11, 12⟩ ⟨12, 12⟩ = true ∧
    inHoleBBox triHole ⟨11, 12⟩ = true ∧
    inHoleBBox triHole ⟨12, 12⟩ = true :=
  ⟨by decide, by decide, by decide, by decide, by decide⟩

/-- C4: the "no false negatives by construction" guarantee fails: the built
Bloom oracle's probed bit for the in-range invalid pair `(11,12)-(12,12)` is
unset, the query therefore returns `false` (valid), yet the exact oracle
reports the edge invalid. -/
theorem c4_bloom_false_negative :
    (GeoHoleBloom.new [triHash] triProblem).isOk = true ∧
    bloomBitSet (GeoHoleBloom.new [triHash] triProblem) triHash triKey = false ∧
    bloomQueryResult (GeoHoleBloom.new [triHash] triProblem)
        ⟨11, 12⟩ ⟨12, 12⟩ = false ∧
    exact_is_edge_invalid triHole ⟨11, 12⟩ ⟨12, 12⟩ = true :=
  ⟨by decide, by decide, by decide, by decide⟩

/-! ### Exact rational geometry for the quad-tree oracle

`geo_hole_quad_tree.rs` works on `geo::Coordinate<f64>` values obtained from
lattice points and unit-cell corners; at these magnitudes `f64` arithmetic is
exact, and the predicates are embedded over `ℚ`. -/

/-- A `geo::Coordinate<f64>` value, embedded exactly. -/
structure QPoint where
  x : ℚ
  y : ℚ
deriving DecidableEq, Repr

/-- A `geo::Line<f64>`: a directed closed segment. -/
structure Seg where
  start : QPoint
  stop : QPoint
deriving DecidableEq, Repr

/-- The point of `s` at parameter `t` (`t = 0` is `start`, `t = 1` is `stop`). -/
def ptAt (s : Seg) (t : ℚ) : QPoint :=
  ⟨s.start.x + t * (s.stop.x - s.start.x), s.start.y + t * (s.stop.y - s.start.y)⟩

/-- Is `q` in the closed axis-aligned rectangle `[lo, hi]`? -/
def inRect (lo hi q : QPoint) : Bool :=
  decide (lo.x ≤ q.x ∧ q.x ≤ hi.x ∧ lo.y ≤ q.y ∧ q.y ≤ hi.y)

/-- The `t`-interval (already clipped into `[0, 1]`) on which the coordinate
`a + t * d` stays in `[lo, hi]`; `none` when it is empty on all of `ℝ`. -/
def axClip (a d lo hi : ℚ) : Option (ℚ × ℚ) :=
  if d = 0 then
    if lo ≤ a ∧ a ≤ hi then some (0, 1) else none
  else if d > 0 then
    some ((lo - a) / d, (hi - a) / d)
  else
    some ((hi - a) / d, (lo - a) / d)

/-- The parameter interval (within `[0, 1]`) on which the segment is inside
the closed rectangle `[lo, hi]`; `none` when the segment misses the rectangle. -/
def segRectInterval (s : Seg) (lo hi : QPoint) : Option (ℚ × ℚ) :=
  match axClip s.start.x (s.stop.x - s.start.x) lo.x hi.x,
      axClip s.start.y (s.stop.y - s.start.y) lo.y hi.y with
  | some (l1, u1), some (l2, u2) =>
    let l := max (max l1 l2) 0
    let u := min (min u1 u2) 1
    if l ≤ u then some (l, u) else none
  | _, _ => none

/-- Modelled from the spec: the external geo crate's segment/rectangle
intersection test (`edge.intersects(&rect)`), as the mathematically exact
"does the closed segment meet the closed rectangle". -/
def segIntersectsRect (s : Seg) (lo hi : QPoint) : Bool :=
  (segRectInterval s lo hi).isSome

/-- Twice the signed area of the triangle `p q r` over `ℚ`. -/
def orientQ (p q r : QPoint) : ℚ :=
  (q.x - p.x) * (r.y - p.y) - (q.y - p.y) * (r.x - p.x)

/-- `geo::algorithm::line_intersection::LineIntersection`. -/
inductive LineIntersectionKind where
  | SinglePoint (intersection : QPoint) (is_proper : Bool)
  | Collinear (intersection : Seg)
deriving DecidableEq, Repr

/-- Is `z` within the coordinate bounding box of the segment `u v`?  (Exactly
segment membership when `z` is known collinear with `u v`.) -/
def betweenOn (z u v : QPoint) : Bool :=
  decide (min u.x v.x ≤ z.x ∧ z.x ≤ max u.x v.x ∧
    min u.y v.y ≤ z.y ∧ z.y ≤ max u.y v.y)

/-- The projection axis used to order points along the common supporting line
of `p`: the `x` coordinate when `p` is not vertical, else the `y` coordinate. -/
def segKey (p : Seg) : QPoint → ℚ :=
  fun z => if p.start.x ≠ p.stop.x then z.x else z.y

/-- The endpoints of `s` sorted by the projection `k`. -/
def segSorted (k : QPoint → ℚ) (s : Seg) : QPoint × QPoint :=
  if k s.start ≤ k s.stop then (s.start, s.stop) else (s.stop, s.start)

/-- The overlap of two collinear segments (`p`, `q` on one line), as computed
by the robust line intersector: a sub-segment, a single touching point, or
nothing.  Degenerate (one-point) segments are handled first. -/
def collinearOverlap (p q : Seg) : Option LineIntersectionKind :=
  if p.start = p.stop then
    if q.start = q.stop then
      if p.start = q.start then some (.SinglePoint p.start false) else none
    else
      if betweenOn p.start q.start q.stop then
        some (.SinglePoint p.start false)
      else none
  else if q.start = q.stop then
    if betweenOn q.start p.start p.stop then
      some (.SinglePoint q.start false)
    else none
  else
    let key := segKey p
    let ps := segSorted key p
    let qs := segSorted key q
    let ovLo := if key ps.1 ≤ key qs.1 then qs.1 else ps.1
    let ovHi := if key ps.2 ≤ key qs.2 then ps.2 else qs.2
    if key ovLo < key ovHi then some (.Collinear ⟨ovLo, ovHi⟩)
    else if key ovLo = key ovHi then some (.SinglePoint ovLo false)
    else none

/-- The crossing point of the two (non-parallel) supporting lines. -/
def lineCrossPoint (p q : Seg) : QPoint :=
  let dpx := p.stop.x - p.start.x
  let dpy := p.stop.y - p.start.y
  let dqx := q.stop.x - q.start.x
  let dqy := q.stop.y - q.start.y
  let denom := dpx * dqy - dpy * dqx
  let t := ((q.start.x - p.start.x) * dqy - (q.start.y - p.start.y) * dqx) / denom
  ptAt p t

/-- Modelled from the spec: the external geo crate's `line_intersection`
(a port of the JTS robust line intersector): `none` when the segments do not
meet; the collinear overlap when all four orientations vanish; otherwise the
single intersection point, proper exactly when it is an endpoint of neither
segment. -/
def lineIntersection (p q : Seg) : Option LineIntersectionKind :=
  let o1 := orientQ p.start p.stop q.start
  let o2 := orientQ p.start p.stop q.stop
  let o3 := orientQ q.start q.stop p.start
  let o4 := orientQ q.start q.stop p.stop
  if (o1 > 0 ∧ o2 > 0) ∨ (o1 < 0 ∧ o2 < 0) ∨
      (o3 > 0 ∧ o4 > 0) ∨ (o3 < 0 ∧ o4 < 0) then
    none
  else if o1 = 0 ∧ o2 = 0 ∧ o3 = 0 ∧ o4 = 0 then
    collinearOverlap p q
  else
    let z :=
      if o1 = 0 then q.start
      else if o2 = 0 then q.stop
      else if o3 = 0 then p.start
      else if o4 = 0 then p.stop
      else lineCrossPoint p q
    some (.SinglePoint z
      (decide (z ≠ p.start ∧ z ≠ p.stop ∧ z ≠ q.start ∧ z ≠ q.stop)))

/-! ### The quad-tree oracle (`geo_hole_quad_tree.rs`) -/

/-- `geo_hole_quad_tree::Condition`. -/
inductive Condition where
  | EdgeCornerTouch (corner : QPoint)
deriving DecidableEq, Repr

/-- `geo_hole_quad_tree::Node` with its `NodeKind` flattened into one
inductive (the Rust struct pairs a rectangle with a kind tag; each constructor
here carries the rectangle `mn`, `mx`). -/
inductive Node where
  | Inside (mn mx : Point)
  | Outside (mn mx : Point)
  | Uncertain (mn mx : Point)
  | ConditionsSet (mn mx : Point) (conditions : List Condition)
  | Branch (mn mx : Point) (children : List Node)
deriving Repr

/-- The rectangle's smaller corner of a node. -/
def Node.minP : Node → Point
  | .Inside mn _ => mn
  | .Outside mn _ => mn
  | .Uncertain mn _ => mn
  | .ConditionsSet mn _ _ => mn
  | .Branch mn _ _ => mn

/-- The rectangle's larger corner of a node. -/
def Node.maxP : Node → Point
  | .Inside _ mx => mx
  | .Outside _ mx => mx
  | .Uncertain _ mx => mx
  | .ConditionsSet _ mx _ => mx
  | .Branch _ mx _ => mx

/-- `geo_hole_quad_tree::IntersectsNode`. -/
inductive IntersectsNode where
  | DoesNot
  | Inside
  | Outside
  | Uncertain
deriving DecidableEq, Repr

/-- The `upper` edge of the node rectangle (`rect.min` to
`(rect.max.x, rect.min.y)`), as built by the query and the builder. -/
def nodeEdgeUpper (lo hi : QPoint) : Seg := ⟨lo, ⟨hi.x, lo.y⟩⟩

/-- The `right` edge (`(rect.max.x, rect.min.y)` to `rect.max`). -/
def nodeEdgeRight (lo hi : QPoint) : Seg := ⟨⟨hi.x, lo.y⟩, hi⟩

/-- The `bottom` edge (`rect.max` to `(rect.min.x, rect.max.y)`). -/
def nodeEdgeBottom (lo hi : QPoint) : Seg := ⟨hi, ⟨lo.x, hi.y⟩⟩

/-- The `left` edge (`(rect.min.x, rect.max.y)` to `rect.min`). -/
def nodeEdgeLeft (lo hi : QPoint) : Seg := ⟨⟨lo.x, hi.y⟩, lo⟩

/-- Does the 4-tuple of `line_intersection` results of a query segment against
the node edges match the recorded corner-touch condition?  The four recognized
patterns of `quad_tree_edge_node_intersection`'s `ConditionsSet` arm. -/
def cornerTouchMatches (lo hi : QPoint) (corner : QPoint)
    (iu ir ib il : Option LineIntersectionKind) : Bool :=
  match iu, ir, ib, il with
  | some (.SinglePoint upper false), some (.SinglePoint right false), none, none =>
    decide (upper = corner ∧ upper = (nodeEdgeUpper lo hi).stop ∧
      right = (nodeEdgeRight lo hi).start)
  | none, some (.SinglePoint right false), some (.SinglePoint bottom false), none =>
    decide (right = corner ∧ right = (nodeEdgeRight lo hi).stop ∧
      bottom = (nodeEdgeBottom lo hi).start)
  | none, none, some (.SinglePoint bottom false), some (.SinglePoint left false) =>
    decide (bottom = corner ∧ bottom = (nodeEdgeBottom lo hi).stop ∧
      left = (nodeEdgeLeft lo hi).start)
  | some (.SinglePoint upper false), none, none, some (.SinglePoint left false) =>
    decide (left = corner ∧ left = (nodeEdgeLeft lo hi).stop ∧
      upper = (nodeEdgeUpper lo hi).start)
  | _, _, _, _ => false

/-- The rational lower corner of a node rectangle. -/
def rectLo (n : Node) : QPoint := ⟨(n.minP.x : ℚ), (n.minP.y : ℚ)⟩

/-- The rational upper corner of a node rectangle. -/
def rectHi (n : Node) : QPoint := ⟨(n.maxP.x : ℚ), (n.maxP.y : ℚ)⟩

/-- `quad_tree_edge_node_intersection`: recursive descent of a query segment
through the tree.  The Rust loop over `Branch` children early-returns on the
first `Outside`; without side effects this equals "any child `Outside` ⇒
`Outside`, else any child `Uncertain` ⇒ `Uncertain`, else `Inside`". -/
def quad_tree_edge_node_intersection (node : Node) (edge : Seg) :
    IntersectsNode :=
  if ¬ segIntersectsRect edge (rectLo node) (rectHi node) then .DoesNot
  else
    match node with
    | .Inside _ _ => .Inside
    | .Outside _ _ => .Outside
    | .Uncertain _ _ => .Uncertain
    | .ConditionsSet mn mx conditions =>
      let lo : QPoint := ⟨(mn.x : ℚ), (mn.y : ℚ)⟩
      let hi : QPoint := ⟨(mx.x : ℚ), (mx.y : ℚ)⟩
      let iu := lineIntersection edge (nodeEdgeUpper lo hi)
      let ir := lineIntersection edge (nodeEdgeRight lo hi)
      let ib := lineIntersection edge (nodeEdgeBottom lo hi)
      let il := lineIntersection edge (nodeEdgeLeft lo hi)
      if conditions.any (fun c =>
          match c with
          | .EdgeCornerTouch corner => cornerTouchMatches lo hi corner iu ir ib il) then
        .Inside
      else
        .Outside
    | .Branch _ _ children =>
      let rs := children.attach.map
        (fun c => quad_tree_edge_node_intersection c.1 edge)
      if rs.contains .Outside then .Outside
      else if rs.contains .Uncertain then .Uncertain
      else .Inside
termination_by node
decreasing_by
  simp_wf
  have := List.sizeOf_lt_of_mem c.2
  omega

/-- `GeoHoleQuadTree`: the built root and the hole for the exact fallback. -/
structure GeoHoleQuadTree where
  root : Node
  geo_hole : List Point

/-- The query segment of two lattice endpoints. -/
def toSeg (a b : Point) : Seg := ⟨⟨(a.x : ℚ), (a.y : ℚ)⟩, ⟨(b.x : ℚ), (b.y : ℚ)⟩⟩

/-- `impl InvalidEdge for GeoHoleQuadTree`: `Outside`/`DoesNot` ⇒ invalid,
`Inside` ⇒ valid, `Uncertain` ⇒ resolve via the exact polygon oracle. -/
def GeoHoleQuadTree.is_edge_invalid (t : GeoHoleQuadTree) (a b : Point) : Bool :=
  match quad_tree_edge_node_intersection t.root (toSeg a b) with
  | .Outside => true
  | .Inside => false
  | .Uncertain => exact_is_edge_invalid t.geo_hole a b
  | .DoesNot => true

/-- `geo_hole_quad_tree::CreateError`. -/
inductive CreateError where
  | NoPointsInHole
  | NoPointsInFigure
  | FieldIsTooSmall
deriving DecidableEq, Repr

/-- Modelled from the spec: the outcome of the region-relate predicate of the
external geo crate (`hole.relate(&rect)`), reduced to the three cases
`quad_tree_build` distinguishes: `is_disjoint`, `is_contains`, or neither
(intersecting).  Passed to the builder as a parameter. -/
inductive RelateResult where
  | disjoint
  | contains
  | intersects
deriving DecidableEq, Repr

/-- Modelled from the spec: the unit-cell classification of `quad_tree_build`
(enumerate the hole edges intersecting the cell; recognized corner-touch
patterns become `ConditionsSet` conditions, anything else forces `Uncertain`),
computed via the external geo crate's `line_intersection`; passed to the
builder as a parameter. -/
inductive UnitCellKind where
  | uncertain
  | conditionsSet (conditions : List Condition)

/-- `quad_tree_build` (geometric predicates as parameters): empty ranges build
nothing; `disjoint`/`contains` cells become `Outside`/`Inside` leaves; an
intersecting unit cell is classified by `unitCell`; otherwise split at the
integer midpoint into four quadrants and keep the non-empty ones.  (The `/ 2`
midpoint division only ever sees non-negative operands, where Lean's `Int`
division agrees with Rust's.) -/
def quad_tree_build (relate : Point → Point → RelateResult)
    (unitCell : Point → Point → UnitCellKind) (mn mx : Point) : Option Node :=
  if h : mn.x ≥ mx.x ∨ mn.y ≥ mx.y then none
  else
    match relate mn mx with
    | .disjoint => some (.Outside mn mx)
    | .contains => some (.Inside mn mx)
    | .intersects =>
      if h2 : mn.x + 1 ≥ mx.x ∧ mn.y + 1 ≥ mx.y then
        match unitCell mn mx with
        | .uncertain => some (.Uncertain mn mx)
        | .conditionsSet cs => some (.ConditionsSet mn mx cs)
      else
        let cx := mn.x + (mx.x - mn.x) / 2
        let cy := mn.y + (mx.y - mn.y) / 2
        let children :=
          (quad_tree_build relate unitCell mn ⟨cx, cy⟩).toList ++
          (quad_tree_build relate unitCell ⟨cx, mn.y⟩ ⟨mx.x, cy⟩).toList ++
          (quad_tree_build relate unitCell ⟨mn.x, cy⟩ ⟨cx, mx.y⟩).toList ++
          (quad_tree_build relate unitCell ⟨cx, cy⟩ mx).toList
        if children.isEmpty then none
        else some (.Branch mn mx children)
termination_by ((mx.x - mn.x) + (mx.y - mn.y)).toNat
decreasing_by
  all_goals simp_wf
  all_goals omega

/-- `GeoHoleQuadTree::new`: reject an empty hole or figure, compute the field
bounds over hole and figure vertices, expand by the `-2`/`+3` margins, build
the tree, and fail with `FieldIsTooSmall` when nothing was built. -/
def GeoHoleQuadTree.new (relate : Point → Point → RelateResult)
    (unitCell : Point → Point → UnitCellKind) (p : Problem) :
    Except CreateError GeoHoleQuadTree :=
  if p.hole = [] then .error .NoPointsInHole
  else if p.figure.vertices = [] then .error .NoPointsInFigure
  else
    let field_min := holeMin (p.hole ++ p.figure.vertices)
    let field_max := holeMax (p.hole ++ p.figure.vertices)
    match quad_tree_build relate unitCell ⟨field_min.x - 2, field_min.y - 2⟩
        ⟨field_max.x + 3, field_max.y + 3⟩ with
    | none => .error .FieldIsTooSmall
    | some root => .ok { root := root, geo_hole := p.hole }

/-! ### C5: construction-time errors of the quad-tree oracle -/

/-- The componentwise-min fold only ever decreases both coordinates. -/
theorem foldl_min_le (t : List Point) (acc : Point) :
    (t.foldl (fun acc p => (⟨min acc.x p.x, min acc.y p.y⟩ : Point)) acc).x ≤ acc.x ∧
    (t.foldl (fun acc p => (⟨min acc.x p.x, min acc.y p.y⟩ : Point)) acc).y ≤ acc.y := by
  induction t generalizing acc with
  | nil => simp
  | cons p t ih =>
    obtain ⟨hx, hy⟩ := ih ⟨min acc.x p.x, min acc.y p.y⟩
    simp only [List.foldl_cons]
    constructor
    · exact le_trans hx (by simp)
    · exact le_trans hy (by simp)

/-- The componentwise-max fold only ever increases both coordinates. -/
theorem foldl_max_ge (t : List Point) (acc : Point) :
    acc.x ≤ (t.foldl (fun acc p => (⟨max acc.x p.x, max acc.y p.y⟩ : Point)) acc).x ∧
    acc.y ≤ (t.foldl (fun acc p => (⟨max acc.x p.x, max acc.y p.y⟩ : Point)) acc).y := by
  induction t generalizing acc with
  | nil => simp
  | cons p t ih =>
    obtain ⟨hx, hy⟩ := ih ⟨max acc.x p.x, max acc.y p.y⟩
    simp only [List.foldl_cons]
    constructor
    · exact le_trans (by simp) hx
    · exact le_trans (by simp) hy

/-- On a non-empty list the componentwise min is at most the max. -/
theorem holeMin_le_holeMax (l : List Point) (hne : l ≠ []) :
    (holeMin l).x ≤ (holeMax l).x ∧ (holeMin l).y ≤ (holeMax l).y := by
  cases l with
  | nil => exact absurd rfl hne
  | cons h t =>
    obtain ⟨h1x, h1y⟩ := foldl_min_le t h
    obtain ⟨h2x, h2y⟩ := foldl_max_ge t h
    exact ⟨le_trans h1x h2x, le_trans h1y h2y⟩

/-- `quad_tree_build` always builds a node on a non-degenerate range: the
`disjoint`/`contains`/unit-cell arms are all `some`, and the recursion's
fourth quadrant is always itself non-degenerate. -/
theorem quad_tree_build_isSome (relate : Point → Point → RelateResult)
    (unitCell : Point → Point → UnitCellKind) :
    ∀ (n : Nat) (mn mx : Point), ((mx.x - mn.x) + (mx.y - mn.y)).toNat ≤ n →
      mn.x < mx.x → mn.y < mx.y →
      (quad_tree_build relate unitCell mn mx).isSome := by
  intro n
  induction n with
  | zero => intro mn mx hm hx hy; omega
  | succ k ih =>
    intro mn mx hm hx hy
    rw [quad_tree_build]
    rw [dif_neg (by omega)]
    cases relate mn mx with
    | disjoint => simp
    | contains => simp
    | intersects =>
      by_cases h2 : mn.x + 1 ≥ mx.x ∧ mn.y + 1 ≥ mx.y
      · rw [dif_pos h2]
        cases unitCell mn mx <;> simp
      · rw [dif_neg h2]
        have h4 : (quad_tree_build relate unitCell
            ⟨mn.x + (mx.x - mn.x) / 2, mn.y + (mx.y - mn.y) / 2⟩ mx).isSome := by
          apply ih
          · simp only []
            omega
          · simp only []
            omega
          · simp only []
            omega
        obtain ⟨nd, hnd⟩ := Option.isSome_iff_exists.mp h4
        dsimp only
        rw [hnd]
        split
        · rename_i hemp
          rw [List.isEmpty_eq_true, List.append_eq_nil] at hemp
          exact absurd hemp.2 (by simp)
        · simp

/-- C5 (amended): `GeoHoleQuadTree::new` returns `NoPointsInHole` exactly when
the hole vertex list is empty, `NoPointsInFigure` exactly when the hole is
non-empty and the figure vertex list is empty, and NEVER returns
`FieldIsTooSmall`: the `-2`/`+3` margins make the root box at least 5×5 even
when the hole's coordinate range is fully degenerate, so the build always
produces a root.  This holds for every geometric classification (the `relate`
and unit-cell predicates are universally quantified). -/
theorem c5_new_error_characterization
    (relate : Point → Point → RelateResult)
    (unitCell : Point → Point → UnitCellKind) (p : Problem) :
    (GeoHoleQuadTree.new relate unitCell p = .error .NoPointsInHole ↔
      p.hole = []) ∧
    (GeoHoleQuadTree.new relate unitCell p = .error .NoPointsInFigure ↔
      (p.hole ≠ [] ∧ p.figure.vertices = [])) ∧
    GeoHoleQuadTree.new relate unitCell p ≠ .error .FieldIsTooSmall := by
  unfold GeoHoleQuadTree.new
  by_cases hh : p.hole = []
  · rw [if_pos hh]
    refine ⟨by simp [hh], by simp [hh], by simp⟩
  · rw [if_neg hh]
    by_cases hf : p.figure.vertices = []
    · rw [if_pos hf]
      refine ⟨by simp [hh], by simp [hh, hf], by simp⟩
    · rw [if_neg hf]
      have hne : p.hole ++ p.figure.vertices ≠ [] := by
        simp [hh]
      obtain ⟨hmx, hmy⟩ := holeMin_le_holeMax (p.hole ++ p.figure.vertices) hne
      have hsome := quad_tree_build_isSome relate unitCell
        (((holeMax (p.hole ++ p.figure.vertices)).x + 3 -
            ((holeMin (p.hole ++ p.figure.vertices)).x - 2)) +
          ((holeMax (p.hole ++ p.figure.vertices)).y + 3 -
            ((holeMin (p.hole ++ p.figure.vertices)).y - 2))).toNat
        ⟨(holeMin (p.hole ++ p.figure.vertices)).x - 2,
          (holeMin (p.hole ++ p.figure.vertices)).y - 2⟩
        ⟨(holeMax (p.hole ++ p.figure.vertices)).x + 3,
          (holeMax (p.hole ++ p.figure.vertices)).y + 3⟩
        (by dsimp only; omega) (by dsimp only; omega) (by dsimp only; omega)
      obtain ⟨root, hroot⟩ := Option.isSome_iff_exists.mp hsome
      dsimp only
      rw [hroot]
      refine ⟨by simp [hh], by simp [hh, hf], by simp⟩

/-- A degenerate problem: a single-point hole (coordinate range zero in both
axes) and a single-vertex figure. -/
def degenProblem : Problem :=
  { hole := [⟨0, 0⟩],
    figure := { edges := [], vertices := [⟨0, 0⟩] },
    epsilon := 0, bonuses := none }

/-- A correct region-relate oracle for the single-point hole `{(0,0)}`:
disjoint exactly when the origin is outside the closed rectangle, otherwise
intersecting (a point never contains a non-degenerate rectangle). -/
def degenRelate : Point → Point → RelateResult := fun mn mx =>
  if 0 < mn.x ∨ mx.x < 0 ∨ 0 < mn.y ∨ mx.y < 0 then .disjoint else .intersects

/-- A conservative unit-cell classifier (always `Uncertain`, the
`force_uncertain` fallback of the builder). -/
def degenUnit : Point → Point → UnitCellKind := fun _ _ => .uncertain

/-- C5 (counterexample): on a hole whose coordinate range collapses to less
than a unit in both axes, construction does NOT fail with `FieldIsTooSmall`
(the claim requires it to); it succeeds. -/
theorem c5_counterexample :
    (GeoHoleQuadTree.new degenRelate degenUnit degenProblem ≠
      .error .FieldIsTooSmall) ∧
    (holeMax degenProblem.hole).x - (holeMin degenProblem.hole).x = 0 ∧
    (holeMax degenProblem.hole).y - (holeMin degenProblem.hole).y = 0 ∧
    degenProblem.hole ≠ [] ∧ degenProblem.figure.vertices ≠ [] := by
  refine ⟨?_, by decide, by decide, by decide, by decide⟩
  unfold GeoHoleQuadTree.new
  rw [if_neg (by decide), if_neg (by decide)]
  have hsome := quad_tree_build_isSome degenRelate degenUnit 10
    ⟨(holeMin (degenProblem.hole ++ degenProblem.figure.vertices)).x - 2,
      (holeMin (degenProblem.hole ++ degenProblem.figure.vertices)).y - 2⟩
    ⟨(holeMax (degenProblem.hole ++ degenProblem.figure.vertices)).x + 3,
      (holeMax (degenProblem.hole ++ degenProblem.figure.vertices)).y + 3⟩
    (by decide) (by decide) (by decide)
  obtain ⟨root, hroot⟩ := Option.isSome_iff_exists.mp hsome
  dsimp only
  rw [hroot]
  simp

/-! ### C9: symmetry of `is_edge_invalid` for every backend -/

/-- Swapping the base pair of the orientation predicate flips its sign. -/
theorem orient_swap (a b c : Point) : orient b a c = -orient a b c := by
  unfold orient
  ring

/-- A proper crossing does not depend on the direction of the second segment. -/
theorem properCross_symm (u v a b : Point) :
    properCross u v a b = properCross u v b a := by
  unfold properCross
  have h1 : (orient u v a * orient u v b < 0) ↔
      (orient u v b * orient u v a < 0) := by rw [mul_comm]
  have h2 : (orient a b u * orient a b v < 0) ↔
      (orient b a u * orient b a v < 0) := by
    rw [orient_swap a b u, orient_swap a b v] at *
    rw [orient_swap b a u, orient_swap b a v]
    constructor <;> intro h <;> nlinarith [h]
  simp only [h1, h2]

/-- The exact polygon oracle is an undirected predicate. -/
theorem exact_is_edge_invalid_symm (hole : List Point) (a b : Point) :
    exact_is_edge_invalid hole a b = exact_is_edge_invalid hole b a := by
  unfold exact_is_edge_invalid
  have hall : (polyEdges hole).all (fun e => !properCross e.1 e.2 a b) =
      (polyEdges hole).all (fun e => !properCross e.1 e.2 b a) := by
    apply congrArg
    funext e
    rw [properCross_symm]
  rw [hall]
  cases pointInPoly hole a <;> cases pointInPoly hole b <;> simp

/-- The lexicographic point order is asymmetric. -/
theorem pointLt_asymm (a b : Point) (h : pointLt a b = true) :
    pointLt b a = false := by
  simp only [pointLt, Bool.or_eq_true, Bool.and_eq_true, decide_eq_true_eq,
    Bool.or_eq_false_iff, Bool.and_eq_false_iff, decide_eq_false_iff_not] at h ⊢
  omega

/-- If neither point is lexicographically below the other, they are equal. -/
theorem pointLt_total (a b : Point) (h1 : pointLt a b = false)
    (h2 : pointLt b a = false) : a = b := by
  simp only [pointLt, Bool.or_eq_false_iff, Bool.and_eq_false_iff,
    decide_eq_false_iff_not] at h1 h2
  obtain ⟨ax, ay⟩ := a
  obtain ⟨bx, by'⟩ := b
  simp only at h1 h2
  have : ax = bx ∧ ay = by' := by
    constructor <;> rcases h1.2 with h | h <;> rcases h2.2 with h' | h' <;> omega
  simp [this.1, this.2]

/-- `BloomKey::new` normalizes away the endpoint order. -/
theorem BloomKey.new_symm (a b : Point) : BloomKey.new a b = BloomKey.new b a := by
  unfold BloomKey.new
  cases h1 : pointLt a b <;> cases h2 : pointLt b a
  · rw [pointLt_total a b h1 h2]
  · rfl
  · rfl
  · exact absurd (pointLt_asymm a b h1) (by simp [h2])

/-- The Bloom oracle is an undirected predicate. -/
theorem bloom_is_edge_invalid_symm (g : GeoHoleBloom) (a b : Point) :
    g.is_edge_invalid a b = g.is_edge_invalid b a := by
  unfold GeoHoleBloom.is_edge_invalid
  cases ha : (a.x < g.field_min.x || a.x > g.field_max.x ||
      a.y < g.field_min.y || a.y > g.field_max.y) <;>
    cases hb : (b.x < g.field_min.x || b.x > g.field_max.x ||
        b.y < g.field_min.y || b.y > g.field_max.y)
  · simp only [ha, hb, Bool.false_eq_true, if_false, ite_false]
    rw [BloomKey.new_symm a b, exact_is_edge_invalid_symm g.geo_hole a b]
  · simp only [ha, hb, Bool.false_eq_true, if_false, ite_false, if_true, ite_true]
  · simp only [ha, hb, Bool.false_eq_true, if_false, ite_false, if_true, ite_true]
  · simp only [ha, hb, if_true, ite_true]

/-! #### Soundness and completeness of the segment/rectangle test -/

/-- The axis clip interval captures exactly the in-bounds parameters of
`[0, 1]`. -/
theorem axClip_iff (a d lo hi t : ℚ) (h0 : 0 ≤ t) (h1 : t ≤ 1) :
    (lo ≤ a + t * d ∧ a + t * d ≤ hi) ↔
      ∃ l u, axClip a d lo hi = some (l, u) ∧ l ≤ t ∧ t ≤ u := by
  unfold axClip
  split_ifs with hd hin hpos
  · subst hd
    simp only [mul_zero, add_zero]
    exact ⟨fun _ => ⟨0, 1, rfl, h0, h1⟩, fun _ => hin⟩
  · subst hd
    simp only [mul_zero, add_zero]
    constructor
    · intro h
      exact absurd h hin
    · rintro ⟨l, u, hlu, -, -⟩
      exact hlu.elim
  · constructor
    · rintro ⟨hl, hu⟩
      refine ⟨(lo - a) / d, (hi - a) / d, rfl, ?_, ?_⟩
      · rw [div_le_iff₀ hpos]
        linarith
      · rw [le_div_iff₀ hpos]
        linarith
    · rintro ⟨l, u, hlu, hl, hu⟩
      have hinj := Option.some.inj hlu
      obtain ⟨rfl, rfl⟩ : (lo - a) / d = l ∧ (hi - a) / d = u :=
        ⟨congrArg Prod.fst hinj, congrArg Prod.snd hinj⟩
      rw [div_le_iff₀ hpos] at hl
      rw [le_div_iff₀ hpos] at hu
      constructor <;> linarith
  · have hneg : d < 0 := lt_of_le_of_ne (not_lt.mp hpos) hd
    constructor
    · rintro ⟨hl, hu⟩
      refine ⟨(hi - a) / d, (lo - a) / d, rfl, ?_, ?_⟩
      · rw [div_le_iff_of_neg hneg]
        linarith
      · rw [le_div_iff_of_neg hneg]
        linarith
    · rintro ⟨l, u, hlu, hl, hu⟩
      have hinj := Option.some.inj hlu
      obtain ⟨rfl, rfl⟩ : (hi - a) / d = l ∧ (lo - a) / d = u :=
        ⟨congrArg Prod.fst hinj, congrArg Prod.snd hinj⟩
      rw [div_le_iff_of_neg hneg] at hl
      rw [le_div_iff_of_neg hneg] at hu
      constructor <;> linarith

/-- A computed segment/rectangle interval lies inside `[0, 1]` and is ordered. -/
theorem segRectInterval_bounds {s : Seg} {lo hi : QPoint} {l u : ℚ}
    (h : segRectInterval s lo hi = some (l, u)) :
    0 ≤ l ∧ u ≤ 1 ∧ l ≤ u := by
  unfold segRectInterval at h
  cases h1x : axClip s.start.x (s.stop.x - s.start.x) lo.x hi.x with
  | none =>
    rw [h1x] at h
    exact Option.noConfusion h
  | some p1 =>
    cases h2y : axClip s.start.y (s.stop.y - s.start.y) lo.y hi.y with
    | none =>
      rw [h1x, h2y] at h
      exact Option.noConfusion h
    | some p2 =>
      obtain ⟨l1, u1⟩ := p1
      obtain ⟨l2, u2⟩ := p2
      rw [h1x, h2y] at h
      dsimp only at h
      split at h
      · rename_i hle
        have hinj := Option.some.inj h
        obtain ⟨rfl, rfl⟩ : max (max l1 l2) 0 = l ∧ min (min u1 u2) 1 = u :=
          ⟨congrArg Prod.fst hinj, congrArg Prod.snd hinj⟩
        exact ⟨le_max_right _ 0, min_le_right _ 1, hle⟩
      · exact Option.noConfusion h

/-- The segment/rectangle interval captures exactly the parameters of `[0, 1]`
whose segment point lies in the closed rectangle. -/
theorem segRectInterval_iff (s : Seg) (lo hi : QPoint) (t : ℚ)
    (h0 : 0 ≤ t) (h1 : t ≤ 1) :
    inRect lo hi (ptAt s t) = true ↔
      ∃ l u, segRectInterval s lo hi = some (l, u) ∧ l ≤ t ∧ t ≤ u := by
  have hx := axClip_iff s.start.x (s.stop.x - s.start.x) lo.x hi.x t h0 h1
  have hy := axClip_iff s.start.y (s.stop.y - s.start.y) lo.y hi.y t h0 h1
  rw [show inRect lo hi (ptAt s t) = true ↔
      ((lo.x ≤ s.start.x + t * (s.stop.x - s.start.x) ∧
        s.start.x + t * (s.stop.x - s.start.x) ≤ hi.x) ∧
       (lo.y ≤ s.start.y + t * (s.stop.y - s.start.y) ∧
        s.start.y + t * (s.stop.y - s.start.y) ≤ hi.y)) by
    unfold inRect ptAt
    simp only [decide_eq_true_eq]
    constructor
    · rintro ⟨u1, u2, u3, u4⟩
      exact ⟨⟨u1, u2⟩, u3, u4⟩
    · rintro ⟨⟨u1, u2⟩, u3, u4⟩
      exact ⟨u1, u2, u3, u4⟩]
  unfold segRectInterval
  constructor
  · rintro ⟨hxb, hyb⟩
    obtain ⟨l1, u1, h1x, hl1, hu1⟩ := hx.mp hxb
    obtain ⟨l2, u2, h2y, hl2, hu2⟩ := hy.mp hyb
    rw [h1x, h2y]
    dsimp only
    rw [if_pos (le_trans (max_le (max_le hl1 hl2) h0)
      (le_min (le_min hu1 hu2) h1))]
    exact ⟨_, _, rfl, max_le (max_le hl1 hl2) h0, le_min (le_min hu1 hu2) h1⟩
  · rintro ⟨l, u, hlu, hl, hu⟩
    cases h1x : axClip s.start.x (s.stop.x - s.start.x) lo.x hi.x with
    | none =>
      rw [h1x] at hlu
      exact Option.noConfusion hlu
    | some p1 =>
      cases h2y : axClip s.start.y (s.stop.y - s.start.y) lo.y hi.y with
      | none =>
        rw [h1x, h2y] at hlu
        exact Option.noConfusion hlu
      | some p2 =>
        obtain ⟨l1, u1⟩ := p1
        obtain ⟨l2, u2⟩ := p2
        rw [h1x, h2y] at hlu
        dsimp only at hlu
        split at hlu
        · have hinj := Option.some.inj hlu
          obtain ⟨rfl, rfl⟩ :
              max (max l1 l2) 0 = l ∧ min (min u1 u2) 1 = u :=
            ⟨congrArg Prod.fst hinj, congrArg Prod.snd hinj⟩
          constructor
          · refine hx.mpr ⟨l1, u1, h1x, ?_, ?_⟩
            · exact le_trans (le_trans (le_max_left l1 l2) (le_max_left _ 0)) hl
            · exact le_trans hu (le_trans (min_le_left _ 1) (min_le_left u1 u2))
          · refine hy.mpr ⟨l2, u2, h2y, ?_, ?_⟩
            · exact le_trans (le_trans (le_max_right l1 l2) (le_max_left _ 0)) hl
            · exact le_trans hu (le_trans (min_le_left _ 1) (min_le_right u1 u2))
        · exact Option.noConfusion hlu

/-- Completeness: a parameter of `[0, 1]` whose point lies in the rectangle
makes the intersection test answer `true`. -/
theorem segIntersectsRect_complete (s : Seg) (lo hi : QPoint) (t : ℚ)
    (h0 : 0 ≤ t) (h1 : t ≤ 1) (hm : inRect lo hi (ptAt s t) = true) :
    segIntersectsRect s lo hi = true := by
  obtain ⟨l, u, hlu, -, -⟩ := (segRectInterval_iff s lo hi t h0 h1).mp hm
  unfold segIntersectsRect
  rw [hlu]
  rfl

/-- Soundness: a positive intersection test yields a witness parameter. -/
theorem segIntersectsRect_sound (s : Seg) (lo hi : QPoint)
    (h : segIntersectsRect s lo hi = true) :
    ∃ t, 0 ≤ t ∧ t ≤ 1 ∧ inRect lo hi (ptAt s t) = true := by
  unfold segIntersectsRect at h
  obtain ⟨⟨l, u⟩, hlu⟩ := Option.isSome_iff_exists.mp h
  obtain ⟨hb0, hb1, hble⟩ := segRectInterval_bounds hlu
  refine ⟨l, hb0, le_trans hble hb1, ?_⟩
  exact (segRectInterval_iff s lo hi l hb0 (le_trans hble hb1)).mpr
    ⟨l, u, hlu, le_refl l, hble⟩

/-- Reversing a segment reflects its parameterization. -/
theorem ptAt_rev (s : Seg) (t : ℚ) :
    ptAt ⟨s.stop, s.start⟩ t = ptAt s (1 - t) := by
  unfold ptAt
  simp only [QPoint.mk.injEq]
  constructor <;> ring

/-- The segment/rectangle test is direction-independent. -/
theorem segIntersectsRect_rev (s : Seg) (lo hi : QPoint) :
    segIntersectsRect ⟨s.stop, s.start⟩ lo hi = segIntersectsRect s lo hi := by
  have hiff : segIntersectsRect ⟨s.stop, s.start⟩ lo hi = true ↔
      segIntersectsRect s lo hi = true := by
    constructor
    · intro h
      obtain ⟨t, h0, h1, hm⟩ := segIntersectsRect_sound _ _ _ h
      rw [ptAt_rev] at hm
      exact segIntersectsRect_complete s lo hi (1 - t)
        (by linarith) (by linarith) hm
    · intro h
      obtain ⟨t, h0, h1, hm⟩ := segIntersectsRect_sound _ _ _ h
      have hm' : inRect lo hi (ptAt ⟨s.stop, s.start⟩ (1 - t)) = true := by
        rw [ptAt_rev, sub_sub_cancel]
        exact hm
      exact segIntersectsRect_complete ⟨s.stop, s.start⟩ lo hi (1 - t)
        (by linarith) (by linarith) hm'
  cases hL : segIntersectsRect ⟨s.stop, s.start⟩ lo hi <;>
    cases hR : segIntersectsRect s lo hi <;> simp_all

/-! #### Direction-independence of the line intersector -/

/-- Swapping the base pair of the rational orientation flips its sign. -/
theorem orientQ_swap (a b c : QPoint) : orientQ b a c = -orientQ a b c := by
  unfold orientQ
  ring

/-- Two points on the (non-degenerate) line `qs qt` are collinear with both of
its defining points. -/
theorem collinear_trans (qs qt ps pt : QPoint) (hne : qs ≠ qt)
    (h1 : orientQ qs qt ps = 0) (h2 : orientQ qs qt pt = 0) :
    orientQ ps pt qs = 0 ∧ orientQ ps pt qt = 0 := by
  have hfirst : orientQ ps pt qs = 0 := by
    have hxy : qs.x ≠ qt.x ∨ qs.y ≠ qt.y := by
      by_contra hc
      push_neg at hc
      apply hne
      obtain ⟨a1, a2⟩ := qs
      obtain ⟨b1, b2⟩ := qt
      simp only at hc
      simp [hc.1, hc.2]
    rcases hxy with hx | hy
    · have key : (qt.x - qs.x) * orientQ ps pt qs =
          (ps.x - qs.x) * orientQ qs qt pt - (pt.x - qs.x) * orientQ qs qt ps := by
        unfold orientQ
        ring
      rw [h1, h2] at key
      simp only [mul_zero, sub_zero, zero_sub, mul_eq_zero] at key
      rcases key with h | h
      · exact absurd (by linarith : qs.x = qt.x) hx
      · exact h
    · have key : (qt.y - qs.y) * orientQ ps pt qs =
          (ps.y - qs.y) * orientQ qs qt pt - (pt.y - qs.y) * orientQ qs qt ps := by
        unfold orientQ
        ring
      rw [h1, h2] at key
      simp only [mul_zero, sub_zero, zero_sub, mul_eq_zero] at key
      rcases key with h | h
      · exact absurd (by linarith : qs.y = qt.y) hy
      · exact h
  refine ⟨hfirst, ?_⟩
  have key2 : orientQ ps pt qt =
      orientQ ps pt qs + orientQ qs qt ps - orientQ qs qt pt := by
    unfold orientQ
    ring
  rw [key2, hfirst, h1, h2]
  ring

/-- The in-bbox test is symmetric in the segment endpoints. -/
theorem betweenOn_symm (z u v : QPoint) : betweenOn z u v = betweenOn z v u := by
  unfold betweenOn
  rw [min_comm u.x v.x, max_comm u.x v.x, min_comm u.y v.y, max_comm u.y v.y]

/-- The projection axis does not depend on the segment's direction. -/
theorem segKey_rev (p : Seg) : segKey ⟨p.stop, p.start⟩ = segKey p := by
  funext z
  unfold segKey
  dsimp only
  by_cases hxx : p.start.x = p.stop.x
  · rw [if_neg (by simp [hxx]), if_neg (by simp [hxx])]
  · rw [if_pos (Ne.symm hxx), if_pos hxx]

/-- The projection separates the endpoints of a non-degenerate segment. -/
theorem segKey_ne (p : Seg) (hd : p.start ≠ p.stop) :
    segKey p p.start ≠ segKey p p.stop := by
  unfold segKey
  by_cases hxx : p.start.x = p.stop.x
  · rw [if_neg (by simp [hxx]), if_neg (by simp [hxx])]
    intro hyy
    apply hd
    show p.start = p.stop
    calc p.start = ⟨p.start.x, p.start.y⟩ := rfl
      _ = ⟨p.stop.x, p.stop.y⟩ := by rw [hxx, hyy]
      _ = p.stop := rfl
  · rw [if_pos hxx, if_pos hxx]
    exact hxx

/-- Sorting by a separating projection ignores the segment's direction. -/
theorem segSorted_rev (k : QPoint → ℚ) (s : Seg) (hne : k s.start ≠ k s.stop) :
    segSorted k ⟨s.stop, s.start⟩ = segSorted k s := by
  unfold segSorted
  dsimp only
  by_cases h : k s.start ≤ k s.stop
  · rw [if_pos h, if_neg (fun h2 => hne (le_antisymm h h2))]
  · rw [if_neg h, if_pos (le_of_not_le h)]

/-- The collinear-overlap computation ignores the first segment's direction. -/
theorem collinearOverlap_rev (p q : Seg) :
    collinearOverlap ⟨p.stop, p.start⟩ q = collinearOverlap p q := by
  by_cases hd : p.start = p.stop
  · have hp : (⟨p.stop, p.start⟩ : Seg) = p := by
      obtain ⟨a, b⟩ := p
      simp only at hd
      simp [hd]
    rw [hp]
  · unfold collinearOverlap
    dsimp only
    rw [if_neg (fun h => hd h.symm), if_neg hd]
    by_cases hq : q.start = q.stop
    · rw [if_pos hq, if_pos hq, betweenOn_symm q.start p.stop p.start]
    · rw [if_neg hq, if_neg hq, segKey_rev p,
        segSorted_rev (segKey p) p (segKey_ne p hd)]

/-- The crossing point of the supporting lines ignores the first segment's
direction (when the lines are not parallel). -/
theorem lineCrossPoint_rev (p q : Seg)
    (hden : (p.stop.x - p.start.x) * (q.stop.y - q.start.y) -
      (p.stop.y - p.start.y) * (q.stop.x - q.start.x) ≠ 0) :
    lineCrossPoint ⟨p.stop, p.start⟩ q = lineCrossPoint p q := by
  unfold lineCrossPoint
  rw [ptAt_rev]
  have hden2 : (p.start.x - p.stop.x) * (q.stop.y - q.start.y) -
      (p.start.y - p.stop.y) * (q.stop.x - q.start.x) ≠ 0 := by
    intro h
    apply hden
    linarith
  congr 1
  field_simp
  ring

/-- `line_intersection` ignores the direction of its first segment. -/
theorem lineIntersection_rev (p q : Seg) :
    lineIntersection ⟨p.stop, p.start⟩ q = lineIntersection p q := by
  unfold lineIntersection
  dsimp only
  rw [orientQ_swap p.start p.stop q.start, orientQ_swap p.start p.stop q.stop]
  by_cases hrej : (orientQ p.start p.stop q.start > 0 ∧
        orientQ p.start p.stop q.stop > 0) ∨
      (orientQ p.start p.stop q.start < 0 ∧ orientQ p.start p.stop q.stop < 0) ∨
      (orientQ q.start q.stop p.start > 0 ∧ orientQ q.start q.stop p.stop > 0) ∨
      (orientQ q.start q.stop p.start < 0 ∧ orientQ q.start q.stop p.stop < 0)
  · rw [if_pos ?hl, if_pos hrej]
    case hl =>
      rcases hrej with ⟨h1, h2⟩ | ⟨h1, h2⟩ | ⟨h1, h2⟩ | ⟨h1, h2⟩
      · exact Or.inr (Or.inl ⟨by linarith, by linarith⟩)
      · exact Or.inl ⟨by linarith, by linarith⟩
      · exact Or.inr (Or.inr (Or.inl ⟨h2, h1⟩))
      · exact Or.inr (Or.inr (Or.inr ⟨h2, h1⟩))
  · rw [if_neg ?hl, if_neg hrej]
    case hl =>
      intro hc
      apply hrej
      rcases hc with ⟨h1, h2⟩ | ⟨h1, h2⟩ | ⟨h1, h2⟩ | ⟨h1, h2⟩
      · exact Or.inr (Or.inl ⟨by linarith, by linarith⟩)
      · exact Or.inl ⟨by linarith, by linarith⟩
      · exact Or.inr (Or.inr (Or.inl ⟨h2, h1⟩))
      · exact Or.inr (Or.inr (Or.inr ⟨h2, h1⟩))
    by_cases hz : orientQ p.start p.stop q.start = 0 ∧
        orientQ p.start p.stop q.stop = 0 ∧
        orientQ q.start q.stop p.start = 0 ∧ orientQ q.start q.stop p.stop = 0
    · rw [if_pos ?hzl, if_pos hz]
      case hzl =>
        exact ⟨by rw [hz.1]; ring, by rw [hz.2.1]; ring, hz.2.2.2, hz.2.2.1⟩
      exact collinearOverlap_rev p q
    · rw [if_neg ?hzl, if_neg hz]
      case hzl =>
        intro hc
        apply hz
        refine ⟨by linarith [hc.1], by linarith [hc.2.1], hc.2.2.2, hc.2.2.1⟩
      -- the chosen single point coincides
      have hA0 : (-orientQ p.start p.stop q.start = 0) ↔
          (orientQ p.start p.stop q.start = 0) := neg_eq_zero
      have hB0 : (-orientQ p.start p.stop q.stop = 0) ↔
          (orientQ p.start p.stop q.stop = 0) := neg_eq_zero
      by_cases hA : orientQ p.start p.stop q.start = 0
      · rw [if_pos (hA0.mpr hA), if_pos hA]
        congr 1
        apply congrArg
        apply decide_eq_decide.mpr
        constructor
        · rintro ⟨u1, u2, u3, u4⟩
          exact ⟨u2, u1, u3, u4⟩
        · rintro ⟨u1, u2, u3, u4⟩
          exact ⟨u2, u1, u3, u4⟩
      · rw [if_neg (fun h => hA (hA0.mp h)), if_neg hA]
        by_cases hB : orientQ p.start p.stop q.stop = 0
        · rw [if_pos (hB0.mpr hB), if_pos hB]
          congr 1
          apply congrArg
          apply decide_eq_decide.mpr
          constructor
          · rintro ⟨u1, u2, u3, u4⟩
            exact ⟨u2, u1, u3, u4⟩
          · rintro ⟨u1, u2, u3, u4⟩
            exact ⟨u2, u1, u3, u4⟩
        · rw [if_neg (fun h => hB (hB0.mp h)), if_neg hB]
          by_cases hC : orientQ q.start q.stop p.start = 0
          · -- the original picks `p.start`; `D = 0` is impossible here
            have hD : orientQ q.start q.stop p.stop ≠ 0 := by
              intro hD0
              by_cases hqq : q.start = q.stop
              · apply hrej
                have hBA : orientQ p.start p.stop q.stop =
                    orientQ p.start p.stop q.start := by rw [hqq]
                rcases lt_trichotomy (orientQ p.start p.stop q.start) 0 with
                  h | h | h
                · exact Or.inr (Or.inl ⟨h, by rw [hBA]; exact h⟩)
                · exact absurd h hA
                · exact Or.inl ⟨h, by rw [hBA]; exact h⟩
              · obtain ⟨hc1, hc2⟩ :=
                  collinear_trans q.start q.stop p.start p.stop hqq hC hD0
                exact hA hc1
            rw [if_neg hD, if_pos hC, if_pos hC]
            congr 1
            apply congrArg
            apply decide_eq_decide.mpr
            constructor
            · rintro ⟨u1, u2, u3, u4⟩
              exact ⟨u2, u1, u3, u4⟩
            · rintro ⟨u1, u2, u3, u4⟩
              exact ⟨u2, u1, u3, u4⟩
          · by_cases hD : orientQ q.start q.stop p.stop = 0
            · rw [if_pos hD, if_neg hC, if_pos hD]
              congr 1
              apply congrArg
              apply decide_eq_decide.mpr
              constructor
              · rintro ⟨u1, u2, u3, u4⟩
                exact ⟨u2, u1, u3, u4⟩
              · rintro ⟨u1, u2, u3, u4⟩
                exact ⟨u2, u1, u3, u4⟩
            · rw [if_neg hD, if_neg hC, if_neg hD]
              have hden : (p.stop.x - p.start.x) * (q.stop.y - q.start.y) -
                  (p.stop.y - p.start.y) * (q.stop.x - q.start.x) ≠ 0 := by
                have hdiff : orientQ p.start p.stop q.stop -
                    orientQ p.start p.stop q.start =
                    (p.stop.x - p.start.x) * (q.stop.y - q.start.y) -
                      (p.stop.y - p.start.y) * (q.stop.x - q.start.x) := by
                  unfold orientQ
                  ring
                intro h0
                rw [h0] at hdiff
                have hBA : orientQ p.start p.stop q.stop =
                    orientQ p.start p.stop q.start := by linarith
                apply hrej
                rcases lt_trichotomy (orientQ p.start p.stop q.start) 0 with
                  h | h | h
                · exact Or.inr (Or.inl ⟨h, by rw [hBA]; exact h⟩)
                · exact absurd h hA
                · exact Or.inl ⟨h, by rw [hBA]; exact h⟩
              rw [if_neg hC]
              rw [lineCrossPoint_rev p q hden]
              congr 1
              apply congrArg
              apply decide_eq_decide.mpr
              constructor
              · rintro ⟨u1, u2, u3, u4⟩
                exact ⟨u2, u1, u3, u4⟩
              · rintro ⟨u1, u2, u3, u4⟩
                exact ⟨u2, u1, u3, u4⟩

/-- The recursive quad-tree query ignores the query segment's direction. -/
theorem quad_tree_query_rev :
    ∀ (n : Nat) (node : Node), sizeOf node ≤ n → ∀ s : Seg,
      quad_tree_edge_node_intersection node ⟨s.stop, s.start⟩ =
        quad_tree_edge_node_intersection node s := by
  intro n
  induction n with
  | zero =>
    intro node h s
    exfalso
    cases node <;> simp at h
  | succ k ih =>
    intro node hsz s
    rw [quad_tree_edge_node_intersection.eq_def,
      quad_tree_edge_node_intersection.eq_def]
    rw [segIntersectsRect_rev s (rectLo node) (rectHi node)]
    by_cases hint : segIntersectsRect s (rectLo node) (rectHi node) = true
    · rw [if_neg (by simp [hint]), if_neg (by simp [hint])]
      cases node with
      | Inside mn mx => rfl
      | Outside mn mx => rfl
      | Uncertain mn mx => rfl
      | ConditionsSet mn mx conditions =>
        dsimp only
        rw [lineIntersection_rev s (nodeEdgeUpper ⟨(mn.x : ℚ), (mn.y : ℚ)⟩
            ⟨(mx.x : ℚ), (mx.y : ℚ)⟩),
          lineIntersection_rev s (nodeEdgeRight ⟨(mn.x : ℚ), (mn.y : ℚ)⟩
            ⟨(mx.x : ℚ), (mx.y : ℚ)⟩),
          lineIntersection_rev s (nodeEdgeBottom ⟨(mn.x : ℚ), (mn.y : ℚ)⟩
            ⟨(mx.x : ℚ), (mx.y : ℚ)⟩),
          lineIntersection_rev s (nodeEdgeLeft ⟨(mn.x : ℚ), (mn.y : ℚ)⟩
            ⟨(mx.x : ℚ), (mx.y : ℚ)⟩)]
      | Branch mn mx children =>
        dsimp only
        have hmap : children.attach.map
            (fun c => quad_tree_edge_node_intersection c.1 ⟨s.stop, s.start⟩) =
            children.attach.map
              (fun c => quad_tree_edge_node_intersection c.1 s) := by
          apply List.map_congr_left
          intro c hc
          apply ih
          have hlt := List.sizeOf_lt_of_mem c.2
          have : sizeOf (Node.Branch mn mx children) = 1 + sizeOf mn +
              sizeOf mx + sizeOf children := by simp
          omega
        rw [hmap]
    · rw [if_pos (by simp [hint]), if_pos (by simp [hint])]

/-- C9: `is_edge_invalid` is an undirected predicate for every backend: the
exact polygon oracle, the Bloom oracle (whatever its bit set and hash
functions), and the quad-tree oracle (whatever its tree). -/
theorem c9_symmetry :
    (∀ (hole : List Point) (a b : Point),
      exact_is_edge_invalid hole a b = exact_is_edge_invalid hole b a) ∧
    (∀ (g : GeoHoleBloom) (a b : Point),
      g.is_edge_invalid a b = g.is_edge_invalid b a) ∧
    (∀ (t : GeoHoleQuadTree) (a b : Point),
      t.is_edge_invalid a b = t.is_edge_invalid b a) := by
  refine ⟨exact_is_edge_invalid_symm, bloom_is_edge_invalid_symm, ?_⟩
  intro t a b
  unfold GeoHoleQuadTree.is_edge_invalid
  have hq : quad_tree_edge_node_intersection t.root (toSeg b a) =
      quad_tree_edge_node_intersection t.root (toSeg a b) :=
    quad_tree_query_rev (sizeOf t.root) t.root (le_refl _) (toSeg a b)
  rw [hq, exact_is_edge_invalid_symm t.geo_hole a b]

/-! ### C2: the quad-tree oracle's public contract

The out-of-range half of the contract is behavioural: the Rust query has no
explicit endpoint range check, but an endpoint outside the field range forces
an invalid answer through the geometry, given that the spec-modelled
`relate`/`unitCell` parameters are sound for the hole polygon.  The membership
predicate below and the line-intersector lemmas drive that argument. -/

/-- Membership of a rational point on a closed segment. -/
def SegMem (z : QPoint) (s : Seg) : Prop :=
  ∃ t : ℚ, 0 ≤ t ∧ t ≤ 1 ∧ ptAt s t = z

/-- The rational corner of a lattice point. -/
def toQ (p : Point) : QPoint := ⟨(p.x : ℚ), (p.y : ℚ)⟩

/-- The lattice-corner map is injective. -/
theorem toQ_inj (a b : Point) (h : toQ a = toQ b) : a = b := by
  unfold toQ at h
  rw [QPoint.mk.injEq, Int.cast_inj, Int.cast_inj] at h
  obtain ⟨a1, a2⟩ := a
  obtain ⟨b1, b2⟩ := b
  simp only at h
  simp [h.1, h.2]

/-- The parameter-0 point of a segment is its start. -/
theorem ptAt_zero (s : Seg) : ptAt s 0 = s.start := by
  unfold ptAt
  simp

/-- The parameter-1 point of a segment is its stop. -/
theorem ptAt_one (s : Seg) : ptAt s 1 = s.stop := by
  unfold ptAt
  obtain ⟨a, b⟩ := s
  obtain ⟨ax, ay⟩ := a
  obtain ⟨bx, by_⟩ := b
  simp only [QPoint.mk.injEq]
  constructor <;> ring

/-- Orientation along a segment interpolates the endpoint orientations. -/
theorem orientQ_ptAt (a b : QPoint) (s : Seg) (t : ℚ) :
    orientQ a b (ptAt s t) =
      (1 - t) * orientQ a b s.start + t * orientQ a b s.stop := by
  unfold orientQ ptAt
  dsimp only
  ring

/-- A base point is on its own line. -/
theorem orientQ_base_left (a b : QPoint) : orientQ a b a = 0 := by
  unfold orientQ
  ring

/-- The second base point is on the line too. -/
theorem orientQ_base_right (a b : QPoint) : orientQ a b b = 0 := by
  unfold orientQ
  ring

/-- A degenerate base pair orients everything to zero. -/
theorem orientQ_degen (a c : QPoint) : orientQ a a c = 0 := by
  unfold orientQ
  ring

/-- A point of a segment lies on the segment's supporting line. -/
theorem SegMem_on_line (z : QPoint) (s : Seg) (h : SegMem z s) :
    orientQ s.start s.stop z = 0 := by
  obtain ⟨t, -, -, rfl⟩ := h
  rw [orientQ_ptAt, orientQ_base_left, orientQ_base_right]
  ring

/-- A segment contains its start. -/
theorem SegMem_start (s : Seg) : SegMem s.start s :=
  ⟨0, le_refl 0, by norm_num, ptAt_zero s⟩

/-- A segment contains its stop. -/
theorem SegMem_stop (s : Seg) : SegMem s.stop s :=
  ⟨1, by norm_num, le_refl 1, ptAt_one s⟩

/-- Membership is direction-independent. -/
theorem SegMem_of_rev (z : QPoint) (s : Seg)
    (h : SegMem z ⟨s.stop, s.start⟩) : SegMem z s := by
  obtain ⟨t, h0, h1, hz⟩ := h
  rw [ptAt_rev] at hz
  exact ⟨1 - t, by linarith, by linarith, hz⟩

/-- A degenerate segment contains only its start. -/
theorem SegMem_degen (z : QPoint) (s : Seg) (hd : s.start = s.stop)
    (h : SegMem z s) : z = s.start := by
  obtain ⟨t, -, -, rfl⟩ := h
  unfold ptAt
  rw [← hd]
  obtain ⟨a, b⟩ := s.start
  simp only [QPoint.mk.injEq]
  constructor <;> ring

/-- Orientation of a segment point as an explicit convex combination. -/
theorem SegMem_orient_combo (a b : QPoint) (s : Seg) (z : QPoint)
    (h : SegMem z s) :
    ∃ t : ℚ, 0 ≤ t ∧ t ≤ 1 ∧
      orientQ a b z = (1 - t) * orientQ a b s.start + t * orientQ a b s.stop := by
  obtain ⟨t, h0, h1, rfl⟩ := h
  exact ⟨t, h0, h1, orientQ_ptAt a b s t⟩

/-- A scalar convex combination stays between its endpoints. -/
theorem convex_bounds (cs ce t : ℚ) (h0 : 0 ≤ t) (h1 : t ≤ 1) :
    min cs ce ≤ cs + t * (ce - cs) ∧ cs + t * (ce - cs) ≤ max cs ce := by
  rcases le_total cs ce with h | h
  · rw [min_eq_left h, max_eq_right h]
    constructor <;> nlinarith
  · rw [min_eq_right h, max_eq_left h]
    constructor <;> nlinarith

/-- Any projection axis evaluates a segment point between its endpoints. -/
theorem segKey_mem_bounds (r s : Seg) (z : QPoint) (h : SegMem z s) :
    min (segKey r s.start) (segKey r s.stop) ≤ segKey r z ∧
      segKey r z ≤ max (segKey r s.start) (segKey r s.stop) := by
  obtain ⟨t, h0, h1, rfl⟩ := h
  unfold segKey ptAt
  split_ifs
  · exact convex_bounds s.start.x s.stop.x t h0 h1
  · exact convex_bounds s.start.y s.stop.y t h0 h1

/-- A segment point lies in the coordinate bounding box of the endpoints. -/
theorem SegMem_betweenOn (z : QPoint) (s : Seg) (h : SegMem z s) :
    betweenOn z s.start s.stop = true := by
  obtain ⟨t, h0, h1, rfl⟩ := h
  unfold betweenOn ptAt
  apply decide_eq_true
  obtain ⟨hx1, hx2⟩ := convex_bounds s.start.x s.stop.x t h0 h1
  obtain ⟨hy1, hy2⟩ := convex_bounds s.start.y s.stop.y t h0 h1
  exact ⟨hx1, hx2, hy1, hy2⟩

/-- The first sorted endpoint realizes the smaller projection. -/
theorem segSorted_key_fst (k : QPoint → ℚ) (s : Seg) :
    k (segSorted k s).1 = min (k s.start) (k s.stop) := by
  unfold segSorted
  split_ifs with h
  · exact (min_eq_left h).symm
  · exact (min_eq_right (le_of_not_le h)).symm

/-- The second sorted endpoint realizes the larger projection. -/
theorem segSorted_key_snd (k : QPoint → ℚ) (s : Seg) :
    k (segSorted k s).2 = max (k s.start) (k s.stop) := by
  unfold segSorted
  split_ifs with h
  · exact (max_eq_right h).symm
  · exact (max_eq_left (le_of_not_le h)).symm

/-- The first sorted component is one of the segment's endpoints. -/
theorem segSorted_fst_cases (k : QPoint → ℚ) (s : Seg) :
    (segSorted k s).1 = s.start ∨ (segSorted k s).1 = s.stop := by
  unfold segSorted
  split_ifs <;> simp

/-- The second sorted component is one of the segment's endpoints. -/
theorem segSorted_snd_cases (k : QPoint → ℚ) (s : Seg) :
    (segSorted k s).2 = s.start ∨ (segSorted k s).2 = s.stop := by
  unfold segSorted
  split_ifs <;> simp

/-- A convex combination of two positives is positive. -/
theorem combo_pos (A B t : ℚ) (ht0 : 0 ≤ t) (ht1 : t ≤ 1) (hA : 0 < A)
    (hB : 0 < B) : 0 < (1 - t) * A + t * B := by
  rcases eq_or_lt_of_le ht0 with h0 | h0
  · rw [← h0]
    linarith
  · have hb : 0 < t * B := mul_pos h0 hB
    have ha : 0 ≤ (1 - t) * A := mul_nonneg (by linarith) hA.le
    linarith

/-- A convex combination of two negatives is negative. -/
theorem combo_neg (A B t : ℚ) (ht0 : 0 ≤ t) (ht1 : t ≤ 1) (hA : A < 0)
    (hB : B < 0) : (1 - t) * A + t * B < 0 := by
  have := combo_pos (-A) (-B) t ht0 ht1 (by linarith) (by linarith)
  linarith

/-- A common point of the two segments refutes the intersector's quick
same-side rejection. -/
theorem common_not_rejected (p q : Seg) (z : QPoint)
    (hzp : SegMem z p) (hzq : SegMem z q) :
    ¬ ((orientQ p.start p.stop q.start > 0 ∧ orientQ p.start p.stop q.stop > 0) ∨
      (orientQ p.start p.stop q.start < 0 ∧ orientQ p.start p.stop q.stop < 0) ∨
      (orientQ q.start q.stop p.start > 0 ∧ orientQ q.start q.stop p.stop > 0) ∨
      (orientQ q.start q.stop p.start < 0 ∧ orientQ q.start q.stop p.stop < 0)) := by
  have hp0 : orientQ p.start p.stop z = 0 := SegMem_on_line z p hzp
  have hq0 : orientQ q.start q.stop z = 0 := SegMem_on_line z q hzq
  obtain ⟨t, ht0, ht1, hcombo⟩ := SegMem_orient_combo p.start p.stop q z hzq
  obtain ⟨u, hu0, hu1, hcombo2⟩ := SegMem_orient_combo q.start q.stop p z hzp
  rintro (⟨h1, h2⟩ | ⟨h1, h2⟩ | ⟨h1, h2⟩ | ⟨h1, h2⟩)
  · rw [hp0] at hcombo
    have := combo_pos _ _ t ht0 ht1 h1 h2
    linarith
  · rw [hp0] at hcombo
    have := combo_neg _ _ t ht0 ht1 h1 h2
    linarith
  · rw [hq0] at hcombo2
    have := combo_pos _ _ u hu0 hu1 h1 h2
    linarith
  · rw [hq0] at hcombo2
    have := combo_neg _ _ u hu0 hu1 h1 h2
    linarith

/-- Completeness of the collinear-overlap computation: a common point of the
two segments guarantees a non-empty answer. -/
theorem collinearOverlap_ne_none (p q : Seg) (z : QPoint)
    (hzp : SegMem z p) (hzq : SegMem z q) :
    collinearOverlap p q ≠ none := by
  unfold collinearOverlap
  split_ifs with hpd hqd hpq hbet hqd2 hbet2
  · simp
  · exact absurd ((SegMem_degen z p hpd hzp).symm.trans
      (SegMem_degen z q hqd hzq)) hpq
  · simp
  · exfalso
    apply hbet
    rw [SegMem_degen z p hpd hzp] at hzq
    exact SegMem_betweenOn p.start q hzq
  · simp
  · exfalso
    apply hbet2
    rw [SegMem_degen z q hqd2 hzq] at hzp
    exact SegMem_betweenOn q.start p hzp
  · dsimp only
    obtain ⟨hzp1, hzp2⟩ := segKey_mem_bounds p p z hzp
    obtain ⟨hzq1, hzq2⟩ := segKey_mem_bounds p q z hzq
    rw [← segSorted_key_fst (segKey p) p] at hzp1
    rw [← segSorted_key_snd (segKey p) p] at hzp2
    rw [← segSorted_key_fst (segKey p) q] at hzq1
    rw [← segSorted_key_snd (segKey p) q] at hzq2
    split_ifs
    all_goals try simp
    all_goals rename_i hlt heq
    all_goals exact heq (le_antisymm
      (by first
        | exact le_trans hzp1 hzp2
        | exact le_trans hzp1 hzq2
        | exact le_trans hzq1 hzp2
        | exact le_trans hzq1 hzq2)
      (le_of_not_lt hlt))

/-- Completeness of the line intersector: segments with a common point never
answer `none`. -/
theorem lineIntersection_ne_none (p q : Seg) (z : QPoint)
    (hzp : SegMem z p) (hzq : SegMem z q) :
    lineIntersection p q ≠ none := by
  unfold lineIntersection
  dsimp only
  split_ifs with hrej hz0
  · exact absurd hrej (common_not_rejected p q z hzp hzq)
  · exact collinearOverlap_ne_none p q z hzp hzq
  all_goals simp

/-- On a non-degenerate line, the projection axis determines the point. -/
theorem segKey_inj_on_line (p : Seg) (hnd : p.start ≠ p.stop) (z w : QPoint)
    (hz : orientQ p.start p.stop z = 0) (hw : orientQ p.start p.stop w = 0)
    (hk : segKey p z = segKey p w) : z = w := by
  unfold segKey at hk
  unfold orientQ at hz hw
  have hfin : z.x = w.x ∧ z.y = w.y → z = w := by
    rintro ⟨h1, h2⟩
    calc z = ⟨z.x, z.y⟩ := rfl
      _ = ⟨w.x, w.y⟩ := by rw [h1, h2]
      _ = w := rfl
  by_cases hxx : p.start.x ≠ p.stop.x
  · rw [if_pos hxx, if_pos hxx] at hk
    have hdx : p.stop.x - p.start.x ≠ 0 := fun hc => hxx (by linarith)
    have key : (p.stop.x - p.start.x) * (z.y - w.y) = 0 := by
      linear_combination hz - hw + (p.stop.y - p.start.y) * hk
    rcases mul_eq_zero.mp key with hc | hc
    · exact absurd hc hdx
    · exact hfin ⟨hk, by linarith⟩
  · rw [if_neg hxx, if_neg hxx] at hk
    push_neg at hxx
    have hdy : p.stop.y - p.start.y ≠ 0 := by
      intro hc
      apply hnd
      calc p.start = ⟨p.start.x, p.start.y⟩ := rfl
        _ = ⟨p.stop.x, p.stop.y⟩ := by
            rw [hxx]
            rw [show p.start.y = p.stop.y by linarith]
        _ = p.stop := rfl
    have keyz : (p.stop.y - p.start.y) * (z.x - p.start.x) = 0 := by
      linear_combination -hz - (z.y - p.start.y) * hxx
    have keyw : (p.stop.y - p.start.y) * (w.x - p.start.x) = 0 := by
      linear_combination -hw - (w.y - p.start.y) * hxx
    rcases mul_eq_zero.mp keyz with hc1 | hc1
    · exact absurd hc1 hdy
    · rcases mul_eq_zero.mp keyw with hc2 | hc2
      · exact absurd hc2 hdy
      · exact hfin ⟨by linarith, hk⟩

/-- Three points on a common (non-degenerate) line are mutually collinear. -/
theorem collinear3 (z w a b c : QPoint) (hzw : z ≠ w)
    (ha : orientQ z w a = 0) (hb : orientQ z w b = 0)
    (hc : orientQ z w c = 0) : orientQ a b c = 0 := by
  have hxy : z.x ≠ w.x ∨ z.y ≠ w.y := by
    by_contra hcon
    push_neg at hcon
    apply hzw
    calc z = ⟨z.x, z.y⟩ := rfl
      _ = ⟨w.x, w.y⟩ := by rw [hcon.1, hcon.2]
      _ = w := rfl
  rcases hxy with hx | hy
  · have key : (w.x - z.x) * orientQ a b c =
        (b.x - a.x) * orientQ z w c - (c.x - a.x) * orientQ z w b +
          (c.x - b.x) * orientQ z w a := by
      unfold orientQ
      ring
    rw [ha, hb, hc] at key
    simp only [mul_zero, sub_zero, add_zero] at key
    rcases mul_eq_zero.mp key with h | h
    · exact absurd (by linarith : z.x = w.x) hx
    · exact h
  · have key : (w.y - z.y) * orientQ a b c =
        (b.y - a.y) * orientQ z w c - (c.y - a.y) * orientQ z w b +
          (c.y - b.y) * orientQ z w a := by
      unfold orientQ
      ring
    rw [ha, hb, hc] at key
    simp only [mul_zero, sub_zero, add_zero] at key
    rcases mul_eq_zero.mp key with h | h
    · exact absurd (by linarith : z.y = w.y) hy
    · exact h

/-- Two non-identical supporting lines share at most one point. -/
theorem lines_unique_common (p q : Seg) (z w : QPoint)
    (hpd : p.start ≠ p.stop) (hqd : q.start ≠ q.stop)
    (hz0 : ¬ (orientQ p.start p.stop q.start = 0 ∧
      orientQ p.start p.stop q.stop = 0 ∧ orientQ q.start q.stop p.start = 0 ∧
      orientQ q.start q.stop p.stop = 0))
    (hzp : orientQ p.start p.stop z = 0) (hzq : orientQ q.start q.stop z = 0)
    (hwp : orientQ p.start p.stop w = 0) (hwq : orientQ q.start q.stop w = 0) :
    z = w := by
  by_contra hne
  apply hz0
  obtain ⟨hp1, hp2⟩ := collinear_trans p.start p.stop z w hpd hzp hwp
  obtain ⟨hq1, hq2⟩ := collinear_trans q.start q.stop z w hqd hzq hwq
  exact ⟨collinear3 z w p.start p.stop q.start hne hp1 hp2 hq1,
    collinear3 z w p.start p.stop q.stop hne hp1 hp2 hq2,
    collinear3 z w q.start q.stop p.start hne hq1 hq2 hp1,
    collinear3 z w q.start q.stop p.stop hne hq1 hq2 hp2⟩

/-- With a common point and not all four orientations zero, both segments are
non-degenerate. -/
theorem selection_nondegen (p q : Seg) (z : QPoint)
    (hzp : SegMem z p) (hzq : SegMem z q)
    (hz0 : ¬ (orientQ p.start p.stop q.start = 0 ∧
      orientQ p.start p.stop q.stop = 0 ∧ orientQ q.start q.stop p.start = 0 ∧
      orientQ q.start q.stop p.stop = 0)) :
    p.start ≠ p.stop ∧ q.start ≠ q.stop := by
  constructor
  · intro hd
    apply hz0
    have hzq0 : orientQ q.start q.stop z = 0 := SegMem_on_line z q hzq
    have hzps : z = p.start := SegMem_degen z p hd hzp
    refine ⟨?_, ?_, ?_, ?_⟩
    · rw [← hd]
      exact orientQ_degen _ _
    · rw [← hd]
      exact orientQ_degen _ _
    · rw [← hzps]
      exact hzq0
    · rw [← hd, ← hzps]
      exact hzq0
  · intro hd
    apply hz0
    have hzp0 : orientQ p.start p.stop z = 0 := SegMem_on_line z p hzp
    have hzqs : z = q.start := SegMem_degen z q hd hzq
    refine ⟨?_, ?_, ?_, ?_⟩
    · rw [← hzqs]
      exact hzp0
    · rw [← hd, ← hzqs]
      exact hzp0
    · rw [← hd]
      exact orientQ_degen _ _
    · rw [← hd]
      exact orientQ_degen _ _

/-- The computed crossing point lies on both supporting lines (when the
denominator is non-zero). -/
theorem lineCrossPoint_on_lines (p q : Seg)
    (hden : (p.stop.x - p.start.x) * (q.stop.y - q.start.y) -
      (p.stop.y - p.start.y) * (q.stop.x - q.start.x) ≠ 0) :
    orientQ p.start p.stop (lineCrossPoint p q) = 0 ∧
      orientQ q.start q.stop (lineCrossPoint p q) = 0 := by
  unfold lineCrossPoint
  dsimp only
  constructor
  · rw [orientQ_ptAt, orientQ_base_left, orientQ_base_right]
    ring
  · rw [orientQ_ptAt]
    have hnum : ((q.start.x - p.start.x) * (q.stop.y - q.start.y) -
        (q.start.y - p.start.y) * (q.stop.x - q.start.x)) =
        orientQ q.start q.stop p.start := by
      unfold orientQ
      ring
    have hdiff : orientQ q.start q.stop p.stop - orientQ q.start q.stop p.start =
        -((p.stop.x - p.start.x) * (q.stop.y - q.start.y) -
          (p.stop.y - p.start.y) * (q.stop.x - q.start.x)) := by
      unfold orientQ
      ring
    set t := ((q.start.x - p.start.x) * (q.stop.y - q.start.y) -
      (q.start.y - p.start.y) * (q.stop.x - q.start.x)) /
      ((p.stop.x - p.start.x) * (q.stop.y - q.start.y) -
        (p.stop.y - p.start.y) * (q.stop.x - q.start.x)) with ht
    have hexp : (1 - t) * orientQ q.start q.stop p.start +
        t * orientQ q.start q.stop p.stop =
        orientQ q.start q.stop p.start +
          t * (orientQ q.start q.stop p.stop - orientQ q.start q.stop p.start) := by
      ring
    rw [hexp, hdiff, ht, hnum]
    field_simp
    ring

/-- Soundness of the collinear-overlap computation in the single-point case:
the answer is the unique common point. -/
theorem collinearOverlap_single (p q : Seg) (z w : QPoint) (pr : Bool)
    (ho1 : orientQ p.start p.stop q.start = 0)
    (ho2 : orientQ p.start p.stop q.stop = 0)
    (h : collinearOverlap p q = some (.SinglePoint w pr))
    (hzp : SegMem z p) (hzq : SegMem z q) : z = w := by
  unfold collinearOverlap at h
  by_cases hpd : p.start = p.stop
  · rw [if_pos hpd] at h
    by_cases hqd : q.start = q.stop
    · rw [if_pos hqd] at h
      split_ifs at h with hpq
      simp only [Option.some.injEq, LineIntersectionKind.SinglePoint.injEq] at h
      rw [← h.1]
      exact SegMem_degen z p hpd hzp
    · rw [if_neg hqd] at h
      split_ifs at h with hbet
      simp only [Option.some.injEq, LineIntersectionKind.SinglePoint.injEq] at h
      rw [← h.1]
      exact SegMem_degen z p hpd hzp
  · rw [if_neg hpd] at h
    by_cases hqd : q.start = q.stop
    · rw [if_pos hqd] at h
      split_ifs at h with hbet
      simp only [Option.some.injEq, LineIntersectionKind.SinglePoint.injEq] at h
      rw [← h.1]
      exact SegMem_degen z q hqd hzq
    · rw [if_neg hqd] at h
      dsimp only at h
      obtain ⟨hzp1, hzp2⟩ := segKey_mem_bounds p p z hzp
      obtain ⟨hzq1, hzq2⟩ := segKey_mem_bounds p q z hzq
      rw [← segSorted_key_fst (segKey p) p] at hzp1
      rw [← segSorted_key_snd (segKey p) p] at hzp2
      rw [← segSorted_key_fst (segKey p) q] at hzq1
      rw [← segSorted_key_snd (segKey p) q] at hzq2
      split_ifs at h
      all_goals try exact Option.noConfusion h
      all_goals simp only [Option.some.injEq] at h
      all_goals try exact LineIntersectionKind.noConfusion h
      all_goals rename_i hA hB hlt heq
      all_goals rw [LineIntersectionKind.SinglePoint.injEq] at h
      all_goals obtain ⟨hw, -⟩ := h
      all_goals refine segKey_inj_on_line p hpd z w (SegMem_on_line z p hzp) ?_ ?_
      all_goals try
        (rw [← hw]
         first
          | (rcases segSorted_fst_cases (segKey p) q with hcase | hcase <;>
              rw [hcase] <;>
              first
                | exact ho1
                | exact ho2
                | exact orientQ_base_left _ _
                | exact orientQ_base_right _ _)
          | (rcases segSorted_fst_cases (segKey p) p with hcase | hcase <;>
              rw [hcase] <;>
              first
                | exact ho1
                | exact ho2
                | exact orientQ_base_left _ _
                | exact orientQ_base_right _ _))
      all_goals rw [← hw]
      all_goals linarith

/-- Soundness of the line intersector in the single-point case: the reported
intersection is the (unique) common point of the two segments. -/
theorem lineIntersection_single (p q : Seg) (z w : QPoint) (pr : Bool)
    (h : lineIntersection p q = some (.SinglePoint w pr))
    (hzp : SegMem z p) (hzq : SegMem z q) : z = w := by
  unfold lineIntersection at h
  dsimp only at h
  split_ifs at h
  all_goals try exact Option.noConfusion h
  all_goals try (
    have hz0 : orientQ p.start p.stop q.start = 0 ∧
        orientQ p.start p.stop q.stop = 0 ∧
        orientQ q.start q.stop p.start = 0 ∧
        orientQ q.start q.stop p.stop = 0 := by assumption
    exact collinearOverlap_single p q z w pr hz0.1 hz0.2.1 h hzp hzq)
  all_goals have hz0 : ¬ (orientQ p.start p.stop q.start = 0 ∧
      orientQ p.start p.stop q.stop = 0 ∧
      orientQ q.start q.stop p.start = 0 ∧
      orientQ q.start q.stop p.stop = 0) := by assumption
  all_goals obtain ⟨hpd, hqd⟩ := selection_nondegen p q z hzp hzq hz0
  all_goals simp only [Option.some.injEq,
    LineIntersectionKind.SinglePoint.injEq] at h
  all_goals obtain ⟨hw, -⟩ := h
  all_goals rw [← hw]
  all_goals have hzlp : orientQ p.start p.stop z = 0 := SegMem_on_line z p hzp
  all_goals have hzlq : orientQ q.start q.stop z = 0 := SegMem_on_line z q hzq
  all_goals first
    | (have ho : orientQ p.start p.stop q.start = 0 := by assumption
       exact lines_unique_common p q z q.start hpd hqd hz0 hzlp hzlq ho
         (orientQ_base_left _ _))
    | (have ho : orientQ p.start p.stop q.stop = 0 := by assumption
       exact lines_unique_common p q z q.stop hpd hqd hz0 hzlp hzlq ho
         (orientQ_base_right _ _))
    | (have ho : orientQ q.start q.stop p.start = 0 := by assumption
       exact lines_unique_common p q z p.start hpd hqd hz0 hzlp hzlq
         (orientQ_base_left _ _) ho)
    | (have ho : orientQ q.start q.stop p.stop = 0 := by assumption
       exact lines_unique_common p q z p.stop hpd hqd hz0 hzlp hzlq
         (orientQ_base_right _ _) ho)
    | (have ho3 : ¬ orientQ q.start q.stop p.start = 0 := by assumption
       have ho4 : ¬ orientQ q.start q.stop p.stop = 0 := by assumption
       have hrej : ¬ ((orientQ p.start p.stop q.start > 0 ∧
           orientQ p.start p.stop q.stop > 0) ∨
         (orientQ p.start p.stop q.start < 0 ∧
           orientQ p.start p.stop q.stop < 0) ∨
         (orientQ q.start q.stop p.start > 0 ∧
           orientQ q.start q.stop p.stop > 0) ∨
         (orientQ q.start q.stop p.start < 0 ∧
           orientQ q.start q.stop p.stop < 0)) := by assumption
       have hden : (p.stop.x - p.start.x) * (q.stop.y - q.start.y) -
           (p.stop.y - p.start.y) * (q.stop.x - q.start.x) ≠ 0 := by
         have hd34 : (p.stop.x - p.start.x) * (q.stop.y - q.start.y) -
             (p.stop.y - p.start.y) * (q.stop.x - q.start.x) =
             orientQ q.start q.stop p.start - orientQ q.start q.stop p.stop := by
           unfold orientQ
           ring
         rw [hd34]
         push_neg at hrej
         obtain ⟨-, -, hr3, hr4⟩ := hrej
         intro hc
         rcases lt_trichotomy (orientQ q.start q.stop p.start) 0 with hs | hs | hs
         · have hs2 : orientQ q.start q.stop p.stop < 0 := by linarith
           linarith [hr4 hs]
         · exact ho3 hs
         · have hs2 : orientQ q.start q.stop p.stop > 0 := by linarith
           linarith [hr3 hs]
       obtain ⟨hcp, hcq⟩ := lineCrossPoint_on_lines p q hden
       exact lines_unique_common p q z (lineCrossPoint p q) hpd hqd hz0
         hzlp hzlq hcp hcq)

/-- A segment that starts outside the rectangle but meets it enters through
the rectangle's boundary: the interval's lower end is a segment point inside
the rectangle with one coordinate pinned to a rectangle side. -/
theorem segRectInterval_entry (s : Seg) (lo hi : QPoint) (l u : ℚ)
    (h : segRectInterval s lo hi = some (l, u))
    (h0 : inRect lo hi (ptAt s 0) = false) :
    SegMem (ptAt s l) s ∧ inRect lo hi (ptAt s l) = true ∧
      ((ptAt s l).x = lo.x ∨ (ptAt s l).x = hi.x ∨
        (ptAt s l).y = lo.y ∨ (ptAt s l).y = hi.y) := by
  obtain ⟨hb0, hb1, hble⟩ := segRectInterval_bounds h
  have hl1 : l ≤ 1 := le_trans hble hb1
  have hmem : inRect lo hi (ptAt s l) = true :=
    (segRectInterval_iff s lo hi l hb0 hl1).mpr ⟨l, u, h, le_refl l, hble⟩
  have hlpos : 0 < l := by
    rcases lt_or_eq_of_le hb0 with hp | hp
    · exact hp
    · exfalso
      have : inRect lo hi (ptAt s 0) = true :=
        (segRectInterval_iff s lo hi 0 (le_refl 0) (by norm_num)).mpr
          ⟨l, u, h, le_of_eq hp.symm, le_trans hb0 hble⟩
      rw [this] at h0
      exact Bool.noConfusion h0
  refine ⟨⟨l, hb0, hl1, rfl⟩, hmem, ?_⟩
  unfold segRectInterval at h
  cases h1x : axClip s.start.x (s.stop.x - s.start.x) lo.x hi.x with
  | none =>
    rw [h1x] at h
    exact Option.noConfusion h
  | some p1 =>
    cases h2y : axClip s.start.y (s.stop.y - s.start.y) lo.y hi.y with
    | none =>
      rw [h1x, h2y] at h
      exact Option.noConfusion h
    | some p2 =>
      obtain ⟨l1, u1⟩ := p1
      obtain ⟨l2, u2⟩ := p2
      rw [h1x, h2y] at h
      dsimp only at h
      split at h
      · have hinj := Option.some.inj h
        have hleq : max (max l1 l2) 0 = l := congrArg Prod.fst hinj
        have hl12 : l1 = l ∨ l2 = l := by
          rcases max_cases (max l1 l2) 0 with ⟨he, -⟩ | ⟨he, hlt⟩
          · rw [he] at hleq
            rcases max_cases l1 l2 with ⟨he2, -⟩ | ⟨he2, -⟩
            · left
              rw [← he2, hleq]
            · right
              rw [← he2, hleq]
          · rw [he] at hleq
            rw [← hleq] at hlpos
            exact absurd hlpos (lt_irrefl 0)
        rcases hl12 with hll | hll
        · unfold axClip at h1x
          split_ifs at h1x with hd hin hdp
          · have : l1 = 0 := (Prod.mk.injEq _ _ _ _ ▸ Option.some.inj h1x).1.symm
            rw [← hll, this] at hlpos
            exact absurd hlpos (lt_irrefl 0)
          · have hl1v : (lo.x - s.start.x) / (s.stop.x - s.start.x) = l1 :=
              (Prod.mk.injEq _ _ _ _ ▸ Option.some.inj h1x).1
            left
            unfold ptAt
            dsimp only
            rw [← hll, ← hl1v]
            field_simp
          · have hl1v : (hi.x - s.start.x) / (s.stop.x - s.start.x) = l1 :=
              (Prod.mk.injEq _ _ _ _ ▸ Option.some.inj h1x).1
            right
            left
            unfold ptAt
            dsimp only
            rw [← hll, ← hl1v]
            have hd2 : s.stop.x - s.start.x ≠ 0 := hd
            field_simp
        · unfold axClip at h2y
          split_ifs at h2y with hd hin hdp
          · have : l2 = 0 := (Prod.mk.injEq _ _ _ _ ▸ Option.some.inj h2y).1.symm
            rw [← hll, this] at hlpos
            exact absurd hlpos (lt_irrefl 0)
          · have hl2v : (lo.y - s.start.y) / (s.stop.y - s.start.y) = l2 :=
              (Prod.mk.injEq _ _ _ _ ▸ Option.some.inj h2y).1
            right
            right
            left
            unfold ptAt
            dsimp only
            rw [← hll, ← hl2v]
            field_simp
          · have hl2v : (hi.y - s.start.y) / (s.stop.y - s.start.y) = l2 :=
              (Prod.mk.injEq _ _ _ _ ▸ Option.some.inj h2y).1
            right
            right
            right
            unfold ptAt
            dsimp only
            rw [← hll, ← hl2v]
            field_simp
      · exact Option.noConfusion h

/-- Is the node a leaf (anything but a `Branch`)? -/
def Node.isLeaf : Node → Bool
  | .Branch _ _ _ => false
  | _ => true

/-- Closed lattice-rectangle membership. -/
def inRectI (mn mx z : Point) : Prop :=
  mn.x ≤ z.x ∧ z.x ≤ mx.x ∧ mn.y ≤ z.y ∧ z.y ≤ mx.y

/-- Rational rectangle membership at lattice corners is lattice membership. -/
theorem inRect_toQ (mn mx z : Point) :
    inRect (toQ mn) (toQ mx) (toQ z) = true ↔ inRectI mn mx z := by
  unfold inRect toQ inRectI
  simp [Int.cast_le]

/-- Rectangle membership is monotone under enlarging the rectangle. -/
theorem inRect_mono (lo hi lo' hi' z : QPoint)
    (hx1 : lo'.x ≤ lo.x) (hy1 : lo'.y ≤ lo.y)
    (hx2 : hi.x ≤ hi'.x) (hy2 : hi.y ≤ hi'.y)
    (h : inRect lo hi z = true) : inRect lo' hi' z = true := by
  unfold inRect at h ⊢
  simp only [decide_eq_true_eq] at h ⊢
  obtain ⟨a, b, c, d⟩ := h
  exact ⟨by linarith, by linarith, by linarith, by linarith⟩

/-- The rational lower corner is the cast lattice corner. -/
theorem rectLo_eq (n : Node) : rectLo n = toQ n.minP := rfl

/-- The rational upper corner is the cast lattice corner. -/
theorem rectHi_eq (n : Node) : rectHi n = toQ n.maxP := rfl

/-- Structural invariant of every tree produced by `quad_tree_build`: leaf
tags record the relate/unit-cell classification of their own rectangle,
`ConditionsSet` leaves sit on unit cells, and a branch's children have nested
rectangles that jointly cover the parent's rectangle. -/
inductive BuildInv (relate : Point → Point → RelateResult)
    (unitCell : Point → Point → UnitCellKind) : Node → Prop where
  | inside (mn mx : Point) (hx : mn.x < mx.x) (hy : mn.y < mx.y)
      (hrel : relate mn mx = .contains) :
      BuildInv relate unitCell (.Inside mn mx)
  | outside (mn mx : Point) (hx : mn.x < mx.x) (hy : mn.y < mx.y)
      (hrel : relate mn mx = .disjoint) :
      BuildInv relate unitCell (.Outside mn mx)
  | uncertain (mn mx : Point) (hx : mn.x < mx.x) (hy : mn.y < mx.y) :
      BuildInv relate unitCell (.Uncertain mn mx)
  | conditionsSet (mn mx : Point) (cs : List Condition)
      (hx : mx.x = mn.x + 1) (hy : mx.y = mn.y + 1)
      (hcell : unitCell mn mx = .conditionsSet cs) :
      BuildInv relate unitCell (.ConditionsSet mn mx cs)
  | branch (mn mx : Point) (children : List Node)
      (hx : mn.x < mx.x) (hy : mn.y < mx.y)
      (hbounds : ∀ c ∈ children, mn.x ≤ c.minP.x ∧ mn.y ≤ c.minP.y ∧
        c.maxP.x ≤ mx.x ∧ c.maxP.y ≤ mx.y)
      (hsub : ∀ c ∈ children, BuildInv relate unitCell c)
      (hcover : ∀ z : QPoint, inRect (toQ mn) (toQ mx) z = true →
        ∃ c ∈ children, inRect (rectLo c) (rectHi c) z = true) :
      BuildInv relate unitCell (.Branch mn mx children)

/-- A built node's recorded rectangle is exactly the requested range. -/
theorem quad_tree_build_minmax (relate : Point → Point → RelateResult)
    (unitCell : Point → Point → UnitCellKind) (mn mx : Point) (n : Node)
    (h : quad_tree_build relate unitCell mn mx = some n) :
    n.minP = mn ∧ n.maxP = mx := by
  rw [quad_tree_build.eq_def] at h
  split at h
  · exact Option.noConfusion h
  · split at h
    · rw [← Option.some.inj h]
      exact ⟨rfl, rfl⟩
    · rw [← Option.some.inj h]
      exact ⟨rfl, rfl⟩
    · split at h
      · split at h
        · rw [← Option.some.inj h]
          exact ⟨rfl, rfl⟩
        · rw [← Option.some.inj h]
          exact ⟨rfl, rfl⟩
      · dsimp only at h
        split at h
        · exact Option.noConfusion h
        · rw [← Option.some.inj h]
          exact ⟨rfl, rfl⟩

/-- Every tree produced by `quad_tree_build` satisfies the structural
invariant `BuildInv`. -/
theorem quad_tree_build_inv (relate : Point → Point → RelateResult)
    (unitCell : Point → Point → UnitCellKind) :
    ∀ (n : Nat) (mn mx : Point), ((mx.x - mn.x) + (mx.y - mn.y)).toNat ≤ n →
      ∀ nd : Node, quad_tree_build relate unitCell mn mx = some nd →
        BuildInv relate unitCell nd := by
  intro n
  induction n with
  | zero =>
    intro mn mx hm nd h
    rw [quad_tree_build.eq_def] at h
    rw [dif_pos (by omega)] at h
    exact Option.noConfusion h
  | succ k ih =>
    intro mn mx hm nd h
    rw [quad_tree_build.eq_def] at h
    by_cases hg : mn.x ≥ mx.x ∨ mn.y ≥ mx.y
    · rw [dif_pos hg] at h
      exact Option.noConfusion h
    · rw [dif_neg hg] at h
      push_neg at hg
      obtain ⟨hgx, hgy⟩ := hg
      split at h
      · rename_i hrel
        rw [← Option.some.inj h]
        exact BuildInv.outside mn mx hgx hgy hrel
      · rename_i hrel
        rw [← Option.some.inj h]
        exact BuildInv.inside mn mx hgx hgy hrel
      · by_cases h2 : mn.x + 1 ≥ mx.x ∧ mn.y + 1 ≥ mx.y
        · rw [dif_pos h2] at h
          split at h
          · rw [← Option.some.inj h]
            exact BuildInv.uncertain mn mx hgx hgy
          · rename_i hcell
            rw [← Option.some.inj h]
            exact BuildInv.conditionsSet mn mx _ (by omega) (by omega) hcell
        · rw [dif_neg h2] at h
          dsimp only at h
          split at h
          · exact Option.noConfusion h
          · rw [← Option.some.inj h]
            have hmem4 : ∀ c : Node,
                c ∈ (quad_tree_build relate unitCell mn
                      ⟨mn.x + (mx.x - mn.x) / 2, mn.y + (mx.y - mn.y) / 2⟩).toList ++
                    (quad_tree_build relate unitCell ⟨mn.x + (mx.x - mn.x) / 2, mn.y⟩
                      ⟨mx.x, mn.y + (mx.y - mn.y) / 2⟩).toList ++
                    (quad_tree_build relate unitCell ⟨mn.x, mn.y + (mx.y - mn.y) / 2⟩
                      ⟨mn.x + (mx.x - mn.x) / 2, mx.y⟩).toList ++
                    (quad_tree_build relate unitCell
                      ⟨mn.x + (mx.x - mn.x) / 2, mn.y + (mx.y - mn.y) / 2⟩ mx).toList →
                  quad_tree_build relate unitCell mn
                      ⟨mn.x + (mx.x - mn.x) / 2, mn.y + (mx.y - mn.y) / 2⟩ = some c ∨
                    quad_tree_build relate unitCell ⟨mn.x + (mx.x - mn.x) / 2, mn.y⟩
                      ⟨mx.x, mn.y + (mx.y - mn.y) / 2⟩ = some c ∨
                    quad_tree_build relate unitCell ⟨mn.x, mn.y + (mx.y - mn.y) / 2⟩
                      ⟨mn.x + (mx.x - mn.x) / 2, mx.y⟩ = some c ∨
                    quad_tree_build relate unitCell
                      ⟨mn.x + (mx.x - mn.x) / 2, mn.y + (mx.y - mn.y) / 2⟩ mx = some c := by
              intro c hc
              rcases List.mem_append.mp hc with h123 | h4
              · rcases List.mem_append.mp h123 with h12 | h3
                · rcases List.mem_append.mp h12 with h1 | h2m
                  · exact Or.inl (Option.mem_def.mp (Option.mem_toList.mp h1))
                  · exact Or.inr (Or.inl (Option.mem_def.mp (Option.mem_toList.mp h2m)))
                · exact Or.inr (Or.inr (Or.inl
                    (Option.mem_def.mp (Option.mem_toList.mp h3))))
              · exact Or.inr (Or.inr (Or.inr
                  (Option.mem_def.mp (Option.mem_toList.mp h4))))
            refine BuildInv.branch mn mx _ hgx hgy ?_ ?_ ?_
            · intro c hc
              rcases hmem4 c hc with hcs | hcs | hcs | hcs
              all_goals obtain ⟨e1, e2⟩ := quad_tree_build_minmax _ _ _ _ _ hcs
              all_goals rw [e1, e2]
              all_goals dsimp only
              all_goals omega
            · intro c hc
              rcases hmem4 c hc with hcs | hcs | hcs | hcs
              · exact ih _ _ (by dsimp only; omega) c hcs
              · exact ih _ _ (by dsimp only; omega) c hcs
              · exact ih _ _ (by dsimp only; omega) c hcs
              · exact ih _ _ (by dsimp only; omega) c hcs
            · intro z hz
              unfold inRect toQ at hz
              simp only [decide_eq_true_eq] at hz
              obtain ⟨hz1, hz2, hz3, hz4⟩ := hz
              by_cases hLx : z.x ≤ ((mn.x + (mx.x - mn.x) / 2 : ℤ) : ℚ) ∧
                  mn.x < mn.x + (mx.x - mn.x) / 2
              · by_cases hLy : z.y ≤ ((mn.y + (mx.y - mn.y) / 2 : ℤ) : ℚ) ∧
                    mn.y < mn.y + (mx.y - mn.y) / 2
                · obtain ⟨c, hcs⟩ := Option.isSome_iff_exists.mp
                    (quad_tree_build_isSome relate unitCell _ mn
                      ⟨mn.x + (mx.x - mn.x) / 2, mn.y + (mx.y - mn.y) / 2⟩
                      (le_refl _) (by dsimp only; omega) (by dsimp only; omega))
                  refine ⟨c, List.mem_append_left _ (List.mem_append_left _
                    (List.mem_append_left _
                      (Option.mem_toList.mpr (Option.mem_def.mpr hcs)))), ?_⟩
                  rw [rectLo_eq, rectHi_eq]
                  obtain ⟨e1, e2⟩ := quad_tree_build_minmax _ _ _ _ _ hcs
                  rw [e1, e2]
                  unfold inRect toQ
                  apply decide_eq_true
                  dsimp only
                  exact ⟨hz1, hLx.1, hz3, hLy.1⟩
                · obtain ⟨c, hcs⟩ := Option.isSome_iff_exists.mp
                    (quad_tree_build_isSome relate unitCell _
                      ⟨mn.x, mn.y + (mx.y - mn.y) / 2⟩
                      ⟨mn.x + (mx.x - mn.x) / 2, mx.y⟩
                      (le_refl _) (by dsimp only; omega) (by dsimp only; omega))
                  refine ⟨c, List.mem_append_left _ (List.mem_append_right _
                    (Option.mem_toList.mpr (Option.mem_def.mpr hcs))), ?_⟩
                  rw [rectLo_eq, rectHi_eq]
                  obtain ⟨e1, e2⟩ := quad_tree_build_minmax _ _ _ _ _ hcs
                  rw [e1, e2]
                  unfold inRect toQ
                  apply decide_eq_true
                  dsimp only
                  push_neg at hLy
                  refine ⟨hz1, hLx.1, ?_, hz4⟩
                  by_cases hzy : z.y ≤ ((mn.y + (mx.y - mn.y) / 2 : ℤ) : ℚ)
                  · have hcle : mn.y + (mx.y - mn.y) / 2 ≤ mn.y := hLy hzy
                    have : ((mn.y + (mx.y - mn.y) / 2 : ℤ) : ℚ) ≤ ((mn.y : ℤ) : ℚ) := by
                      exact_mod_cast hcle
                    linarith
                  · linarith [le_of_not_le hzy]
              · by_cases hLy : z.y ≤ ((mn.y + (mx.y - mn.y) / 2 : ℤ) : ℚ) ∧
                    mn.y < mn.y + (mx.y - mn.y) / 2
                · obtain ⟨c, hcs⟩ := Option.isSome_iff_exists.mp
                    (quad_tree_build_isSome relate unitCell _
                      ⟨mn.x + (mx.x - mn.x) / 2, mn.y⟩
                      ⟨mx.x, mn.y + (mx.y - mn.y) / 2⟩
                      (le_refl _) (by dsimp only; omega) (by dsimp only; omega))
                  refine ⟨c, List.mem_append_left _ (List.mem_append_left _
                    (List.mem_append_right _
                      (Option.mem_toList.mpr (Option.mem_def.mpr hcs)))), ?_⟩
                  rw [rectLo_eq, rectHi_eq]
                  obtain ⟨e1, e2⟩ := quad_tree_build_minmax _ _ _ _ _ hcs
                  rw [e1, e2]
                  unfold inRect toQ
                  apply decide_eq_true
                  dsimp only
                  push_neg at hLx
                  refine ⟨?_, hz2, hz3, hLy.1⟩
                  by_cases hzx : z.x ≤ ((mn.x + (mx.x - mn.x) / 2 : ℤ) : ℚ)
                  · have hcle : mn.x + (mx.x - mn.x) / 2 ≤ mn.x := hLx hzx
                    have : ((mn.x + (mx.x - mn.x) / 2 : ℤ) : ℚ) ≤ ((mn.x : ℤ) : ℚ) := by
                      exact_mod_cast hcle
                    linarith
                  · linarith [le_of_not_le hzx]
                · obtain ⟨c, hcs⟩ := Option.isSome_iff_exists.mp
                    (quad_tree_build_isSome relate unitCell _
                      ⟨mn.x + (mx.x - mn.x) / 2, mn.y + (mx.y - mn.y) / 2⟩ mx
                      (le_refl _) (by dsimp only; omega) (by dsimp only; omega))
                  refine ⟨c, List.mem_append_right _
                    (Option.mem_toList.mpr (Option.mem_def.mpr hcs)), ?_⟩
                  rw [rectLo_eq, rectHi_eq]
                  obtain ⟨e1, e2⟩ := quad_tree_build_minmax _ _ _ _ _ hcs
                  rw [e1, e2]
                  unfold inRect toQ
                  apply decide_eq_true
                  dsimp only
                  push_neg at hLx
                  push_neg at hLy
                  refine ⟨?_, hz2, ?_, hz4⟩
                  · by_cases hzx : z.x ≤ ((mn.x + (mx.x - mn.x) / 2 : ℤ) : ℚ)
                    · have hcle : mn.x + (mx.x - mn.x) / 2 ≤ mn.x := hLx hzx
                      have : ((mn.x + (mx.x - mn.x) / 2 : ℤ) : ℚ) ≤ ((mn.x : ℤ) : ℚ) := by
                        exact_mod_cast hcle
                      linarith
                    · linarith [le_of_not_le hzx]
                  · by_cases hzy : z.y ≤ ((mn.y + (mx.y - mn.y) / 2 : ℤ) : ℚ)
                    · have hcle : mn.y + (mx.y - mn.y) / 2 ≤ mn.y := hLy hzy
                      have : ((mn.y + (mx.y - mn.y) / 2 : ℤ) : ℚ) ≤ ((mn.y : ℤ) : ℚ) := by
                        exact_mod_cast hcle
                      linarith
                    · linarith [le_of_not_le hzy]

/-- The reflexive-transitive subnode relation along `Branch` children. -/
inductive Subtree : Node → Node → Prop where
  | refl (n : Node) : Subtree n n
  | step (l c : Node) (mn mx : Point) (children : List Node)
      (hc : c ∈ children) (h : Subtree l c) :
      Subtree l (.Branch mn mx children)

/-- Inversion of the structural invariant at a `Branch` node. -/
theorem buildInv_branch_parts (relate : Point → Point → RelateResult)
    (unitCell : Point → Point → UnitCellKind) (mn mx : Point)
    (children : List Node)
    (h : BuildInv relate unitCell (.Branch mn mx children)) :
    (mn.x < mx.x ∧ mn.y < mx.y) ∧
      (∀ c ∈ children, mn.x ≤ c.minP.x ∧ mn.y ≤ c.minP.y ∧
        c.maxP.x ≤ mx.x ∧ c.maxP.y ≤ mx.y) ∧
      (∀ c ∈ children, BuildInv relate unitCell c) ∧
      (∀ z : QPoint, inRect (toQ mn) (toQ mx) z = true →
        ∃ c ∈ children, inRect (rectLo c) (rectHi c) z = true) := by
  cases h with
  | branch _ _ _ hx hy hbounds hsub hcover =>
    exact ⟨⟨hx, hy⟩, hbounds, hsub, hcover⟩

/-- The structural invariant descends to every subnode. -/
theorem subtree_buildInv (relate : Point → Point → RelateResult)
    (unitCell : Point → Point → UnitCellKind) (l n : Node)
    (hsub : Subtree l n) :
    BuildInv relate unitCell n → BuildInv relate unitCell l := by
  induction hsub with
  | refl => exact id
  | step c mn mx children hc hsubc ih =>
    intro hinv
    obtain ⟨-, -, hsubC, -⟩ := buildInv_branch_parts _ _ _ _ _ hinv
    exact ih (hsubC c hc)

/-- A subnode's rectangle is nested in its ancestor's rectangle. -/
theorem subtree_rect (relate : Point → Point → RelateResult)
    (unitCell : Point → Point → UnitCellKind) (l n : Node)
    (hsub : Subtree l n) :
    BuildInv relate unitCell n →
      n.minP.x ≤ l.minP.x ∧ n.minP.y ≤ l.minP.y ∧
        l.maxP.x ≤ n.maxP.x ∧ l.maxP.y ≤ n.maxP.y := by
  induction hsub with
  | refl =>
    intro hinv
    exact ⟨le_refl _, le_refl _, le_refl _, le_refl _⟩
  | step c mn mx children hc hsubc ih =>
    intro hinv
    obtain ⟨-, hbounds, hsubC, -⟩ := buildInv_branch_parts _ _ _ _ _ hinv
    obtain ⟨b1, b2, b3, b4⟩ := hbounds c hc
    obtain ⟨i1, i2, i3, i4⟩ := ih (hsubC c hc)
    show mn.x ≤ l.minP.x ∧ mn.y ≤ l.minP.y ∧ l.maxP.x ≤ mx.x ∧ l.maxP.y ≤ mx.y
    omega

/-- The query answers `DoesNot` exactly when the segment misses the node's
rectangle. -/
theorem quad_tree_query_doesnot (n : Node) (s : Seg) :
    quad_tree_edge_node_intersection n s = .DoesNot ↔
      segIntersectsRect s (rectLo n) (rectHi n) = false := by
  rw [quad_tree_edge_node_intersection.eq_def]
  by_cases hint : segIntersectsRect s (rectLo n) (rectHi n) = true
  · rw [if_neg (by simp [hint])]
    constructor
    · intro h
      exfalso
      cases n with
      | Inside mn mx => exact IntersectsNode.noConfusion h
      | Outside mn mx => exact IntersectsNode.noConfusion h
      | Uncertain mn mx => exact IntersectsNode.noConfusion h
      | ConditionsSet mn mx cs =>
        dsimp only at h
        split_ifs at h <;> exact IntersectsNode.noConfusion h
      | Branch mn mx children =>
        dsimp only at h
        split_ifs at h <;> exact IntersectsNode.noConfusion h
    · intro h
      rw [hint] at h
      exact Bool.noConfusion h
  · rw [if_pos hint]
    simp only [Bool.not_eq_true] at hint
    exact ⟨fun _ => hint, fun _ => rfl⟩

/-- When the root query answers `Inside`, every leaf whose rectangle meets the
segment also answers `Inside`. -/
theorem query_inside_propagate (relate : Point → Point → RelateResult)
    (unitCell : Point → Point → UnitCellKind) (s : Seg) (l n : Node)
    (hsub : Subtree l n) :
    BuildInv relate unitCell n →
      quad_tree_edge_node_intersection n s = .Inside →
      segIntersectsRect s (rectLo l) (rectHi l) = true →
      quad_tree_edge_node_intersection l s = .Inside := by
  induction hsub with
  | refl =>
    intro _ hq _
    exact hq
  | step c mn mx children hc hsubc ih =>
    intro hinv hq hintl
    obtain ⟨-, -, hsubC, -⟩ := buildInv_branch_parts _ _ _ _ _ hinv
    refine ih (hsubC c hc) ?_ hintl
    rw [quad_tree_edge_node_intersection.eq_def] at hq
    by_cases hint : segIntersectsRect s (rectLo (.Branch mn mx children))
        (rectHi (.Branch mn mx children)) = true
    · rw [if_neg (by simp [hint])] at hq
      dsimp only at hq
      split_ifs at hq with hco hcu
      have hmem : quad_tree_edge_node_intersection c s ∈
          children.attach.map
            (fun x => quad_tree_edge_node_intersection x.1 s) :=
        List.mem_map.mpr ⟨⟨c, hc⟩, List.mem_attach _ _, rfl⟩
      have hrect := subtree_rect relate unitCell l c hsubc (hsubC c hc)
      obtain ⟨t, ht0, ht1, htm⟩ := segIntersectsRect_sound _ _ _ hintl
      have hintc : segIntersectsRect s (rectLo c) (rectHi c) = true := by
        refine segIntersectsRect_complete s _ _ t ht0 ht1 ?_
        refine inRect_mono (rectLo l) (rectHi l) (rectLo c) (rectHi c) _
          ?_ ?_ ?_ ?_ htm
        · show ((c.minP.x : ℤ) : ℚ) ≤ ((l.minP.x : ℤ) : ℚ)
          exact_mod_cast hrect.1
        · show ((c.minP.y : ℤ) : ℚ) ≤ ((l.minP.y : ℤ) : ℚ)
          exact_mod_cast hrect.2.1
        · show ((l.maxP.x : ℤ) : ℚ) ≤ ((c.maxP.x : ℤ) : ℚ)
          exact_mod_cast hrect.2.2.1
        · show ((l.maxP.y : ℤ) : ℚ) ≤ ((c.maxP.y : ℤ) : ℚ)
          exact_mod_cast hrect.2.2.2
      cases hqc : quad_tree_edge_node_intersection c s with
      | DoesNot =>
        exfalso
        have := (quad_tree_query_doesnot c s).mp hqc
        rw [hintc] at this
        exact Bool.noConfusion this
      | Inside => rfl
      | Outside =>
        exfalso
        apply hco
        rw [hqc] at hmem
        simpa using hmem
      | Uncertain =>
        exfalso
        apply hcu
        rw [hqc] at hmem
        simpa using hmem
    · rw [if_pos (by simpa using hint)] at hq
      exact IntersectsNode.noConfusion hq

/-- Every point of a node's rectangle lies in some leaf's rectangle. -/
theorem exists_leaf (relate : Point → Point → RelateResult)
    (unitCell : Point → Point → UnitCellKind) (z : QPoint) :
    ∀ (m : Nat) (n : Node), sizeOf n ≤ m → BuildInv relate unitCell n →
      inRect (rectLo n) (rectHi n) z = true →
      ∃ l : Node, Subtree l n ∧ l.isLeaf = true ∧
        inRect (rectLo l) (rectHi l) z = true := by
  intro m
  induction m with
  | zero =>
    intro n hsz
    cases n <;> simp at hsz
  | succ k ih =>
    intro n hsz hinv hz
    cases hinv with
    | inside mn mx hx hy hrel =>
      exact ⟨.Inside mn mx, Subtree.refl _, rfl, hz⟩
    | outside mn mx hx hy hrel =>
      exact ⟨.Outside mn mx, Subtree.refl _, rfl, hz⟩
    | uncertain mn mx hx hy =>
      exact ⟨.Uncertain mn mx, Subtree.refl _, rfl, hz⟩
    | conditionsSet mn mx cs hx hy hcell =>
      exact ⟨.ConditionsSet mn mx cs, Subtree.refl _, rfl, hz⟩
    | branch mn mx children hx hy hbounds hsub hcover =>
      obtain ⟨c, hcmem, hcz⟩ := hcover z hz
      have hszc : sizeOf c ≤ k := by
        have := List.sizeOf_lt_of_mem hcmem
        simp only [Node.Branch.sizeOf_spec] at hsz
        omega
      obtain ⟨l, hls, hleaf, hlz⟩ := ih c hszc (hsub c hcmem) hcz
      exact ⟨l, Subtree.step l c mn mx children hcmem hls, hleaf, hlz⟩

/-- Each recognized corner-touch pattern pins every edge's intersection entry
to `none` or to a single improper touch at the recorded corner. -/
theorem cornerTouchMatches_edges (lo hi corner : QPoint)
    (iu ir ib il : Option LineIntersectionKind)
    (h : cornerTouchMatches lo hi corner iu ir ib il = true) :
    (iu = none ∨ iu = some (.SinglePoint corner false)) ∧
      (ir = none ∨ ir = some (.SinglePoint corner false)) ∧
      (ib = none ∨ ib = some (.SinglePoint corner false)) ∧
      (il = none ∨ il = some (.SinglePoint corner false)) := by
  unfold cornerTouchMatches at h
  split at h
  · rename_i upper right
    rw [decide_eq_true_eq] at h
    obtain ⟨h1, h2, h3⟩ := h
    have hru : right = corner := by
      rw [h3, ← h1, h2]
      rfl
    rw [h1] at *
    rw [hru]
    exact ⟨Or.inr rfl, Or.inr rfl, Or.inl rfl, Or.inl rfl⟩
  · rename_i right bottom
    rw [decide_eq_true_eq] at h
    obtain ⟨h1, h2, h3⟩ := h
    have hbr : bottom = corner := by
      rw [h3, ← h1, h2]
      rfl
    rw [h1] at *
    rw [hbr]
    exact ⟨Or.inl rfl, Or.inr rfl, Or.inr rfl, Or.inl rfl⟩
  · rename_i bottom left
    rw [decide_eq_true_eq] at h
    obtain ⟨h1, h2, h3⟩ := h
    have hlb : left = corner := by
      rw [h3, ← h1, h2]
      rfl
    rw [h1] at *
    rw [hlb]
    exact ⟨Or.inl rfl, Or.inl rfl, Or.inr rfl, Or.inr rfl⟩
  · rename_i upper left
    rw [decide_eq_true_eq] at h
    obtain ⟨h1, h2, h3⟩ := h
    have hul : upper = corner := by
      rw [h3, ← h1, h2]
      rfl
    rw [h1] at *
    rw [hul]
    exact ⟨Or.inr rfl, Or.inl rfl, Or.inl rfl, Or.inr rfl⟩
  · exact Bool.noConfusion h

/-- Coordinatewise extensionality for rational points. -/
theorem QPoint.ext_xy (u c : QPoint) (h1 : u.x = c.x) (h2 : u.y = c.y) :
    u = c := by
  calc u = ⟨u.x, u.y⟩ := rfl
    _ = ⟨c.x, c.y⟩ := by rw [h1, h2]
    _ = c := rfl

/-- A point of the node's upper side lies on the `upper` edge. -/
theorem mem_upper_edge (lo hi c : QPoint) (hy : c.y = lo.y)
    (hx1 : lo.x ≤ c.x) (hx2 : c.x ≤ hi.x) (hlt : lo.x < hi.x) :
    SegMem c (nodeEdgeUpper lo hi) := by
  refine ⟨(c.x - lo.x) / (hi.x - lo.x), div_nonneg (by linarith) (by linarith),
    (div_le_one (by linarith)).mpr (by linarith), ?_⟩
  apply QPoint.ext_xy
  · unfold ptAt nodeEdgeUpper
    dsimp only
    rw [div_mul_cancel₀ _ (by linarith : hi.x - lo.x ≠ 0)]
    ring
  · unfold ptAt nodeEdgeUpper
    dsimp only
    rw [hy]
    ring

/-- A point of the node's right side lies on the `right` edge. -/
theorem mem_right_edge (lo hi c : QPoint) (hx : c.x = hi.x)
    (hy1 : lo.y ≤ c.y) (hy2 : c.y ≤ hi.y) (hlt : lo.y < hi.y) :
    SegMem c (nodeEdgeRight lo hi) := by
  refine ⟨(c.y - lo.y) / (hi.y - lo.y), div_nonneg (by linarith) (by linarith),
    (div_le_one (by linarith)).mpr (by linarith), ?_⟩
  apply QPoint.ext_xy
  · unfold ptAt nodeEdgeRight
    dsimp only
    rw [hx]
    ring
  · unfold ptAt nodeEdgeRight
    dsimp only
    rw [div_mul_cancel₀ _ (by linarith : hi.y - lo.y ≠ 0)]
    ring

/-- A point of the node's bottom side lies on the `bottom` edge. -/
theorem mem_bottom_edge (lo hi c : QPoint) (hy : c.y = hi.y)
    (hx1 : lo.x ≤ c.x) (hx2 : c.x ≤ hi.x) (hlt : lo.x < hi.x) :
    SegMem c (nodeEdgeBottom lo hi) := by
  refine ⟨(hi.x - c.x) / (hi.x - lo.x), div_nonneg (by linarith) (by linarith),
    (div_le_one (by linarith)).mpr (by linarith), ?_⟩
  apply QPoint.ext_xy
  · unfold ptAt nodeEdgeBottom
    dsimp only
    rw [show lo.x - hi.x = -(hi.x - lo.x) by ring, mul_neg,
      div_mul_cancel₀ _ (by linarith : hi.x - lo.x ≠ 0)]
    ring
  · unfold ptAt nodeEdgeBottom
    dsimp only
    rw [hy]
    ring

/-- A point of the node's left side lies on the `left` edge. -/
theorem mem_left_edge (lo hi c : QPoint) (hx : c.x = lo.x)
    (hy1 : lo.y ≤ c.y) (hy2 : c.y ≤ hi.y) (hlt : lo.y < hi.y) :
    SegMem c (nodeEdgeLeft lo hi) := by
  refine ⟨(hi.y - c.y) / (hi.y - lo.y), div_nonneg (by linarith) (by linarith),
    (div_le_one (by linarith)).mpr (by linarith), ?_⟩
  apply QPoint.ext_xy
  · unfold ptAt nodeEdgeLeft
    dsimp only
    rw [hx]
    ring
  · unfold ptAt nodeEdgeLeft
    dsimp only
    rw [show lo.y - hi.y = -(hi.y - lo.y) by ring, mul_neg,
      div_mul_cancel₀ _ (by linarith : hi.y - lo.y ≠ 0)]
    ring

/-- The field bounds over hole and figure (as computed by
`GeoHoleQuadTree::new` and `GeoHoleBloom::new`): the smaller corner. -/
def fieldMin (p : Problem) : Point := holeMin (p.hole ++ p.figure.vertices)

/-- The larger corner of the field bounds. -/
def fieldMax (p : Problem) : Point := holeMax (p.hole ++ p.figure.vertices)

/-- Is the lattice point within the index's known coordinate range? -/
def inFieldRange (p : Problem) (z : Point) : Bool :=
  decide ((fieldMin p).x ≤ z.x ∧ z.x ≤ (fieldMax p).x ∧
    (fieldMin p).y ≤ z.y ∧ z.y ≤ (fieldMax p).y)

/-- Extending the point list can only shrink the componentwise minimum. -/
theorem holeMin_append (hole fig : List Point) (hne : hole ≠ []) :
    (holeMin (hole ++ fig)).x ≤ (holeMin hole).x ∧
      (holeMin (hole ++ fig)).y ≤ (holeMin hole).y := by
  cases hole with
  | nil => exact absurd rfl hne
  | cons h t =>
    have hshow : holeMin ((h :: t) ++ fig) = (t ++ fig).foldl
        (fun acc p => (⟨min acc.x p.x, min acc.y p.y⟩ : Point)) h := rfl
    have hshow2 : holeMin (h :: t) = t.foldl
        (fun acc p => (⟨min acc.x p.x, min acc.y p.y⟩ : Point)) h := rfl
    rw [hshow, hshow2, List.foldl_append]
    exact foldl_min_le fig
      (t.foldl (fun acc p => (⟨min acc.x p.x, min acc.y p.y⟩ : Point)) h)

/-- Extending the point list can only grow the componentwise maximum. -/
theorem holeMax_append (hole fig : List Point) (hne : hole ≠ []) :
    (holeMax hole).x ≤ (holeMax (hole ++ fig)).x ∧
      (holeMax hole).y ≤ (holeMax (hole ++ fig)).y := by
  cases hole with
  | nil => exact absurd rfl hne
  | cons h t =>
    have hshow : holeMax ((h :: t) ++ fig) = (t ++ fig).foldl
        (fun acc p => (⟨max acc.x p.x, max acc.y p.y⟩ : Point)) h := rfl
    have hshow2 : holeMax (h :: t) = t.foldl
        (fun acc p => (⟨max acc.x p.x, max acc.y p.y⟩ : Point)) h := rfl
    rw [hshow, hshow2, List.foldl_append]
    exact foldl_max_ge fig
      (t.foldl (fun acc p => (⟨max acc.x p.x, max acc.y p.y⟩ : Point)) h)

/-- A point outside the hole's bounding box is not contained in the hole. -/
theorem pointInPoly_of_out_bbox (hole : List Point) (z : Point)
    (h : z.x < (holeMin hole).x ∨ (holeMax hole).x < z.x ∨
      z.y < (holeMin hole).y ∨ (holeMax hole).y < z.y) :
    pointInPoly hole z = false := by
  have hb : inHoleBBox hole z = false := by
    rw [Bool.eq_false_iff]
    intro hcon
    unfold inHoleBBox at hcon
    simp only [Bool.and_eq_true, decide_eq_true_eq] at hcon
    omega
  unfold pointInPoly
  rw [hb]
  rfl

/-- A contained point lies in the hole's bounding box. -/
theorem pointInPoly_bbox (hole : List Point) (z : Point)
    (h : pointInPoly hole z = true) :
    (holeMin hole).x ≤ z.x ∧ z.x ≤ (holeMax hole).x ∧
      (holeMin hole).y ≤ z.y ∧ z.y ≤ (holeMax hole).y := by
  unfold pointInPoly inHoleBBox at h
  simp only [Bool.and_eq_true, decide_eq_true_eq] at h
  omega

/-- An endpoint not contained in the hole makes the exact oracle answer
invalid. -/
theorem exact_invalid_of_out (hole : List Point) (a b : Point)
    (h : pointInPoly hole a = false ∨ pointInPoly hole b = false) :
    exact_is_edge_invalid hole a b = true := by
  unfold exact_is_edge_invalid
  rcases h with h | h <;> rw [h] <;> simp

/-- A lattice point outside the field range is not contained in the hole. -/
theorem pointInPoly_of_out_field (p : Problem) (z : Point) (hne : p.hole ≠ [])
    (h : inFieldRange p z = false) : pointInPoly p.hole z = false := by
  apply pointInPoly_of_out_bbox
  obtain ⟨hax, hay⟩ := holeMin_append p.hole p.figure.vertices hne
  obtain ⟨hbx, hby⟩ := holeMax_append p.hole p.figure.vertices hne
  unfold inFieldRange fieldMin fieldMax at h
  rw [decide_eq_false_iff_not] at h
  omega

/-- A query that does not answer `DoesNot` meets the node's rectangle. -/
theorem query_ne_doesnot_intersects (n : Node) (s : Seg)
    (h : quad_tree_edge_node_intersection n s ≠ .DoesNot) :
    segIntersectsRect s (rectLo n) (rectHi n) = true := by
  cases hx : segIntersectsRect s (rectLo n) (rectHi n) with
  | true => rfl
  | false => exact absurd ((quad_tree_query_doesnot n s).mpr hx) h

/-- An `Outside` leaf never answers `Inside`. -/
theorem query_outside_leaf (mn mx : Point) (s : Seg) :
    quad_tree_edge_node_intersection (.Outside mn mx) s ≠ .Inside := by
  rw [quad_tree_edge_node_intersection.eq_def]
  split_ifs
  · exact fun hc => IntersectsNode.noConfusion hc
  · exact fun hc => IntersectsNode.noConfusion hc

/-- An `Uncertain` leaf never answers `Inside`. -/
theorem query_uncertain_leaf (mn mx : Point) (s : Seg) :
    quad_tree_edge_node_intersection (.Uncertain mn mx) s ≠ .Inside := by
  rw [quad_tree_edge_node_intersection.eq_def]
  split_ifs
  · exact fun hc => IntersectsNode.noConfusion hc
  · exact fun hc => IntersectsNode.noConfusion hc

/-- A `ConditionsSet` leaf answers `Inside` only through a recorded condition
whose corner-touch pattern matches the four edge intersections. -/
theorem query_conditions_inside (mn mx : Point) (cs : List Condition) (s : Seg)
    (hql : quad_tree_edge_node_intersection (.ConditionsSet mn mx cs) s =
      .Inside) :
    ∃ corner : QPoint, Condition.EdgeCornerTouch corner ∈ cs ∧
      cornerTouchMatches (toQ mn) (toQ mx) corner
        (lineIntersection s (nodeEdgeUpper (toQ mn) (toQ mx)))
        (lineIntersection s (nodeEdgeRight (toQ mn) (toQ mx)))
        (lineIntersection s (nodeEdgeBottom (toQ mn) (toQ mx)))
        (lineIntersection s (nodeEdgeLeft (toQ mn) (toQ mx))) = true := by
  rw [quad_tree_edge_node_intersection.eq_def] at hql
  split_ifs at hql
  dsimp only at hql
  split_ifs at hql with hany
  rw [List.any_eq_true] at hany
  obtain ⟨cond, hmem, hmatch⟩ := hany
  cases cond with
  | EdgeCornerTouch corner => exact ⟨corner, hmem, hmatch⟩

/-- A cell edge carrying `w0` whose intersection entry is `none` or a single
touch at a point different from `w0` is contradictory. -/
theorem edge_entry_contra (s e : Seg) (w0 corner : QPoint)
    (hw0s : SegMem w0 s) (hw0e : SegMem w0 e)
    (pentry : lineIntersection s e = none ∨
      lineIntersection s e = some (.SinglePoint corner false))
    (hne : w0 ≠ corner) : False := by
  rcases pentry with h | h
  · exact lineIntersection_ne_none s e w0 hw0s hw0e h
  · exact hne (lineIntersection_single s e w0 corner false h hw0s hw0e)

/-- C2: the public contract of the quad-tree oracle's `is_edge_invalid`.
The code has no explicit endpoint range check; the first conjunct is the
behavioural form: whenever either endpoint lies outside the field's
coordinate range, the answer is `true` (invalid), provided the spec-modelled
geometric parameters are sound for the hole (`contains` cells really contain
every lattice point of the cell, and recorded corner conditions really touch
the hole).  The remaining conjuncts are the dispatch on the root query:
`Outside`/`DoesNot` ⇒ invalid, `Inside` ⇒ valid, `Uncertain` ⇒ the exact
polygon oracle's answer. -/
theorem c2_quad_tree_contract (relate : Point → Point → RelateResult)
    (unitCell : Point → Point → UnitCellKind) (p : Problem)
    (t : GeoHoleQuadTree)
    (hnew : GeoHoleQuadTree.new relate unitCell p = .ok t)
    (hrel_con : ∀ mn mx : Point, relate mn mx = .contains →
      ∀ z : Point, inRectI mn mx z → pointInPoly p.hole z = true)
    (hunit : ∀ mn mx : Point, ∀ cs : List Condition,
      unitCell mn mx = .conditionsSet cs →
      ∀ c ∈ cs, ∃ w : Point, c = .EdgeCornerTouch (toQ w) ∧
        pointInPoly p.hole w = true)
    (a b : Point) :
    ((inFieldRange p a = false ∨ inFieldRange p b = false) →
      t.is_edge_invalid a b = true) ∧
    (quad_tree_edge_node_intersection t.root (toSeg a b) = .Outside →
      t.is_edge_invalid a b = true) ∧
    (quad_tree_edge_node_intersection t.root (toSeg a b) = .DoesNot →
      t.is_edge_invalid a b = true) ∧
    (quad_tree_edge_node_intersection t.root (toSeg a b) = .Inside →
      t.is_edge_invalid a b = false) ∧
    (quad_tree_edge_node_intersection t.root (toSeg a b) = .Uncertain →
      t.is_edge_invalid a b = exact_is_edge_invalid p.hole a b) := by
  unfold GeoHoleQuadTree.new at hnew
  by_cases hh : p.hole = []
  · rw [if_pos hh] at hnew
    exact Except.noConfusion hnew
  rw [if_neg hh] at hnew
  by_cases hf : p.figure.vertices = []
  · rw [if_pos hf] at hnew
    exact Except.noConfusion hnew
  rw [if_neg hf] at hnew
  dsimp only at hnew
  cases hbuild : quad_tree_build relate unitCell
      ⟨(holeMin (p.hole ++ p.figure.vertices)).x - 2,
        (holeMin (p.hole ++ p.figure.vertices)).y - 2⟩
      ⟨(holeMax (p.hole ++ p.figure.vertices)).x + 3,
        (holeMax (p.hole ++ p.figure.vertices)).y + 3⟩ with
  | none =>
    rw [hbuild] at hnew
    exact Except.noConfusion hnew
  | some root =>
  rw [hbuild] at hnew
  have ht : t = { root := root, geo_hole := p.hole } := (Except.ok.inj hnew).symm
  have htr : t.root = root := by rw [ht]
  have htg : t.geo_hole = p.hole := by rw [ht]
  have hinv : BuildInv relate unitCell root :=
    quad_tree_build_inv relate unitCell _ _ _ (le_refl _) root hbuild
  obtain ⟨hrm1, hrm2⟩ := quad_tree_build_minmax _ _ _ _ _ hbuild
  have hmin_app := holeMin_append p.hole p.figure.vertices hh
  have hmax_app := holeMax_append p.hole p.figure.vertices hh
  refine ⟨?_, ?_, ?_, ?_, ?_⟩
  · intro hout
    unfold GeoHoleQuadTree.is_edge_invalid
    rw [htr, htg]
    cases hq : quad_tree_edge_node_intersection root (toSeg a b) with
    | Outside => rfl
    | DoesNot => rfl
    | Uncertain =>
      apply exact_invalid_of_out
      rcases hout with h | h
      · exact Or.inl (pointInPoly_of_out_field p a hh h)
      · exact Or.inr (pointInPoly_of_out_field p b hh h)
    | Inside =>
    exfalso
    have hint_root : segIntersectsRect (toSeg a b) (rectLo root)
        (rectHi root) = true := by
      refine query_ne_doesnot_intersects root (toSeg a b) ?_
      intro hc
      rw [hq] at hc
      exact IntersectsNode.noConfusion hc
    have hcore : ∀ (s' : Seg) (pOut : Point),
        (s' = toSeg a b ∨ s' = ⟨(toSeg a b).stop, (toSeg a b).start⟩) →
        ptAt s' 0 = toQ pOut → inFieldRange p pOut = false → False := by
      intro s' pOut hseq hstart hof
      have hpoly : pointInPoly p.hole pOut = false :=
        pointInPoly_of_out_field p pOut hh hof
      have hconv : ∀ z : QPoint, SegMem z s' → SegMem z (toSeg a b) := by
        rcases hseq with rfl | heq
        · exact fun z hz => hz
        · subst heq
          exact fun z hz => SegMem_of_rev _ _ hz
      have hint' : segIntersectsRect s' (rectLo root) (rectHi root) = true := by
        rcases hseq with rfl | heq
        · exact hint_root
        · subst heq
          rw [segIntersectsRect_rev]
          exact hint_root
      have hmem0 : SegMem (toQ pOut) (toSeg a b) :=
        hconv _ ⟨0, le_refl 0, by norm_num, hstart⟩
      cases hin : inRect (rectLo root) (rectHi root) (toQ pOut) with
      | true =>
        obtain ⟨l, hsubl, hleaf, hlz⟩ := exists_leaf relate unitCell (toQ pOut)
          (sizeOf root) root (le_refl _) hinv hin
        have hinvl := subtree_buildInv relate unitCell l root hsubl hinv
        obtain ⟨t0, ht00, ht01, hpt0⟩ := id hmem0
        have hintl : segIntersectsRect (toSeg a b) (rectLo l) (rectHi l) =
            true := by
          refine segIntersectsRect_complete _ _ _ t0 ht00 ht01 ?_
          rw [hpt0]
          exact hlz
        have hql := query_inside_propagate relate unitCell (toSeg a b) l root
          hsubl hinv hq hintl
        cases hinvl with
        | inside mn mx hx hy hrel =>
          rw [hrel_con mn mx hrel pOut ((inRect_toQ mn mx pOut).mp hlz)]
            at hpoly
          exact Bool.noConfusion hpoly
        | outside mn mx hx hy hrel => exact query_outside_leaf mn mx _ hql
        | uncertain mn mx hx hy => exact query_uncertain_leaf mn mx _ hql
        | branch mn mx children hx hy h1 h2 h3 => exact Bool.noConfusion hleaf
        | conditionsSet mn mx cs hx hy hcell =>
          obtain ⟨corner, hcmem, hcmatch⟩ :=
            query_conditions_inside mn mx cs _ hql
          obtain ⟨w, hwc, hwin⟩ := hunit mn mx cs hcell _ hcmem
          rw [Condition.EdgeCornerTouch.injEq] at hwc
          obtain ⟨pu, pr2, pb, pl⟩ :=
            cornerTouchMatches_edges _ _ _ _ _ _ _ hcmatch
          have hne : toQ pOut ≠ corner := by
            rw [hwc]
            intro hc
            rw [toQ_inj _ _ hc, hwin] at hpoly
            exact Bool.noConfusion hpoly
          obtain ⟨hb1, hb2, hb3, hb4⟩ := (inRect_toQ mn mx pOut).mp hlz
          have hxcase : pOut.x = mn.x ∨ pOut.x = mx.x := by omega
          have hycase : pOut.y = mn.y ∨ pOut.y = mx.y := by omega
          rcases hxcase with hpx | hpx <;> rcases hycase with hpy | hpy
          · refine edge_entry_contra (toSeg a b)
              (nodeEdgeUpper (toQ mn) (toQ mx)) (toQ pOut) corner hmem0 ?_
              pu hne
            have hpts : toQ pOut = toQ mn := by
              unfold toQ
              rw [hpx, hpy]
            rw [hpts]
            exact SegMem_start _
          · refine edge_entry_contra (toSeg a b)
              (nodeEdgeBottom (toQ mn) (toQ mx)) (toQ pOut) corner hmem0 ?_
              pb hne
            have hpts : toQ pOut = (nodeEdgeBottom (toQ mn) (toQ mx)).stop := by
              unfold toQ nodeEdgeBottom
              dsimp only
              rw [hpx, hpy]
            rw [hpts]
            exact SegMem_stop _
          · refine edge_entry_contra (toSeg a b)
              (nodeEdgeUpper (toQ mn) (toQ mx)) (toQ pOut) corner hmem0 ?_
              pu hne
            have hpts : toQ pOut = (nodeEdgeUpper (toQ mn) (toQ mx)).stop := by
              unfold toQ nodeEdgeUpper
              dsimp only
              rw [hpx, hpy]
            rw [hpts]
            exact SegMem_stop _
          · refine edge_entry_contra (toSeg a b)
              (nodeEdgeRight (toQ mn) (toQ mx)) (toQ pOut) corner hmem0 ?_
              pr2 hne
            have hpts : toQ pOut = (nodeEdgeRight (toQ mn) (toQ mx)).stop := by
              unfold toQ nodeEdgeRight
              dsimp only
              rw [hpx, hpy]
            rw [hpts]
            exact SegMem_stop _
      | false =>
        have hIs : (segRectInterval s' (rectLo root) (rectHi root)).isSome =
            true := hint'
        obtain ⟨⟨lI, uI⟩, hIv⟩ := Option.isSome_iff_exists.mp hIs
        have h0f : inRect (rectLo root) (rectHi root) (ptAt s' 0) = false := by
          rw [hstart]
          exact hin
        obtain ⟨hcmem', hcr, hbdry⟩ :=
          segRectInterval_entry s' _ _ lI uI hIv h0f
        have hcs : SegMem (ptAt s' lI) (toSeg a b) := hconv _ hcmem'
        obtain ⟨l, hsubl, hleaf, hlz⟩ := exists_leaf relate unitCell
          (ptAt s' lI) (sizeOf root) root (le_refl _) hinv hcr
        have hinvl := subtree_buildInv relate unitCell l root hsubl hinv
        obtain ⟨t0, ht00, ht01, hpt0⟩ := id hcs
        have hintl : segIntersectsRect (toSeg a b) (rectLo l) (rectHi l) =
            true := by
          refine segIntersectsRect_complete _ _ _ t0 ht00 ht01 ?_
          rw [hpt0]
          exact hlz
        have hql := query_inside_propagate relate unitCell (toSeg a b) l root
          hsubl hinv hq hintl
        cases hinvl with
        | outside mn mx hx hy hrel => exact query_outside_leaf mn mx _ hql
        | uncertain mn mx hx hy => exact query_uncertain_leaf mn mx _ hql
        | branch mn mx children hx hy h1 h2 h3 => exact Bool.noConfusion hleaf
        | inside mn mx hx hy hrel =>
          have hlz' := hlz
          unfold inRect at hlz'
          rw [decide_eq_true_eq] at hlz'
          have hrect := subtree_rect relate unitCell _ root hsubl hinv
          rw [hrm1, hrm2] at hrect
          simp only [Node.minP, Node.maxP] at hrect
          rcases hbdry with hside | hside | hside | hside
          · have hsx : (ptAt s' lI).x =
                (((holeMin (p.hole ++ p.figure.vertices)).x - 2 : ℤ) : ℚ) := by
              rw [hside, rectLo_eq, hrm1]
              rfl
            have hmnx : mn.x = (holeMin (p.hole ++ p.figure.vertices)).x - 2 := by
              have hle : (((holeMin (p.hole ++ p.figure.vertices)).x - 2 : ℤ) :
                  ℚ) ≤ ((mn.x : ℤ) : ℚ) := Int.cast_le.mpr hrect.1
              have hge : ((mn.x : ℤ) : ℚ) ≤
                  (((holeMin (p.hole ++ p.figure.vertices)).x - 2 : ℤ) : ℚ) := by
                rw [← hsx]
                exact hlz'.1
              exact_mod_cast le_antisymm hge hle
            have hpp := hrel_con mn mx hrel mn
              ⟨le_refl _, le_of_lt hx, le_refl _, le_of_lt hy⟩
            have hbb := pointInPoly_bbox p.hole mn hpp
            omega
          · have hsx : (ptAt s' lI).x =
                (((holeMax (p.hole ++ p.figure.vertices)).x + 3 : ℤ) : ℚ) := by
              rw [hside, rectHi_eq, hrm2]
              rfl
            have hmxx : mx.x = (holeMax (p.hole ++ p.figure.vertices)).x + 3 := by
              have hle : ((mx.x : ℤ) : ℚ) ≤
                  (((holeMax (p.hole ++ p.figure.vertices)).x + 3 : ℤ) : ℚ) :=
                Int.cast_le.mpr hrect.2.2.1
              have hge : (((holeMax (p.hole ++ p.figure.vertices)).x + 3 : ℤ) :
                  ℚ) ≤ ((mx.x : ℤ) : ℚ) := by
                rw [← hsx]
                exact hlz'.2.1
              exact_mod_cast le_antisymm hle hge
            have hpp := hrel_con mn mx hrel mx
              ⟨le_of_lt hx, le_refl _, le_of_lt hy, le_refl _⟩
            have hbb := pointInPoly_bbox p.hole mx hpp
            omega
          · have hsx : (ptAt s' lI).y =
                (((holeMin (p.hole ++ p.figure.vertices)).y - 2 : ℤ) : ℚ) := by
              rw [hside, rectLo_eq, hrm1]
              rfl
            have hmny : mn.y = (holeMin (p.hole ++ p.figure.vertices)).y - 2 := by
              have hle : (((holeMin (p.hole ++ p.figure.vertices)).y - 2 : ℤ) :
                  ℚ) ≤ ((mn.y : ℤ) : ℚ) := Int.cast_le.mpr hrect.2.1
              have hge : ((mn.y : ℤ) : ℚ) ≤
                  (((holeMin (p.hole ++ p.figure.vertices)).y - 2 : ℤ) : ℚ) := by
                rw [← hsx]
                exact hlz'.2.2.1
              exact_mod_cast le_antisymm hge hle
            have hpp := hrel_con mn mx hrel mn
              ⟨le_refl _, le_of_lt hx, le_refl _, le_of_lt hy⟩
            have hbb := pointInPoly_bbox p.hole mn hpp
            omega
          · have hsx : (ptAt s' lI).y =
                (((holeMax (p.hole ++ p.figure.vertices)).y + 3 : ℤ) : ℚ) := by
              rw [hside, rectHi_eq, hrm2]
              rfl
            have hmxy : mx.y = (holeMax (p.hole ++ p.figure.vertices)).y + 3 := by
              have hle : ((mx.y : ℤ) : ℚ) ≤
                  (((holeMax (p.hole ++ p.figure.vertices)).y + 3 : ℤ) : ℚ) :=
                Int.cast_le.mpr hrect.2.2.2
              have hge : (((holeMax (p.hole ++ p.figure.vertices)).y + 3 : ℤ) :
                  ℚ) ≤ ((mx.y : ℤ) : ℚ) := by
                rw [← hsx]
                exact hlz'.2.2.2
              exact_mod_cast le_antisymm hle hge
            have hpp := hrel_con mn mx hrel mx
              ⟨le_of_lt hx, le_refl _, le_of_lt hy, le_refl _⟩
            have hbb := pointInPoly_bbox p.hole mx hpp
            omega
        | conditionsSet mn mx cs hx hy hcell =>
          obtain ⟨corner, hcmem, hcmatch⟩ :=
            query_conditions_inside mn mx cs _ hql
          obtain ⟨w, hwc, hwin⟩ := hunit mn mx cs hcell _ hcmem
          rw [Condition.EdgeCornerTouch.injEq] at hwc
          obtain ⟨pu, pr2, pb, pl⟩ :=
            cornerTouchMatches_edges _ _ _ _ _ _ _ hcmatch
          have hbbw := pointInPoly_bbox p.hole w hwin
          have hlz' := hlz
          unfold inRect at hlz'
          rw [decide_eq_true_eq] at hlz'
          have hrect := subtree_rect relate unitCell _ root hsubl hinv
          rw [hrm1, hrm2] at hrect
          simp only [Node.minP, Node.maxP] at hrect
          rcases hbdry with hside | hside | hside | hside
          · have hsx : (ptAt s' lI).x =
                (((holeMin (p.hole ++ p.figure.vertices)).x - 2 : ℤ) : ℚ) := by
              rw [hside, rectLo_eq, hrm1]
              rfl
            have hmnx : mn.x = (holeMin (p.hole ++ p.figure.vertices)).x - 2 := by
              have hle : (((holeMin (p.hole ++ p.figure.vertices)).x - 2 : ℤ) :
                  ℚ) ≤ ((mn.x : ℤ) : ℚ) := Int.cast_le.mpr hrect.1
              have hge : ((mn.x : ℤ) : ℚ) ≤
                  (((holeMin (p.hole ++ p.figure.vertices)).x - 2 : ℤ) : ℚ) := by
                rw [← hsx]
                exact hlz'.1
              exact_mod_cast le_antisymm hge hle
            have hcx : (ptAt s' lI).x = (toQ mn).x := by
              rw [hsx]
              show (((holeMin (p.hole ++ p.figure.vertices)).x - 2 : ℤ) : ℚ) =
                ((mn.x : ℤ) : ℚ)
              exact_mod_cast hmnx.symm
            have hltQ : (toQ mn).y < (toQ mx).y := by
              show ((mn.y : ℤ) : ℚ) < ((mx.y : ℤ) : ℚ)
              exact_mod_cast (by omega : mn.y < mx.y)
            have hmemL : SegMem (ptAt s' lI)
                (nodeEdgeLeft (toQ mn) (toQ mx)) :=
              mem_left_edge (toQ mn) (toQ mx) _ hcx hlz'.2.2.1 hlz'.2.2.2 hltQ
            have hne : ptAt s' lI ≠ corner := by
              rw [hwc]
              intro hc
              have hwx : (holeMin (p.hole ++ p.figure.vertices)).x - 2 = w.x := by
                have hceq : (ptAt s' lI).x = ((w.x : ℤ) : ℚ) := by
                  rw [hc]
                  rfl
                rw [hsx] at hceq
                exact_mod_cast hceq
              omega
            exact edge_entry_contra (toSeg a b)
              (nodeEdgeLeft (toQ mn) (toQ mx)) _ corner hcs hmemL pl hne
          · have hsx : (ptAt s' lI).x =
                (((holeMax (p.hole ++ p.figure.vertices)).x + 3 : ℤ) : ℚ) := by
              rw [hside, rectHi_eq, hrm2]
              rfl
            have hmxx : mx.x = (holeMax (p.hole ++ p.figure.vertices)).x + 3 := by
              have hle : ((mx.x : ℤ) : ℚ) ≤
                  (((holeMax (p.hole ++ p.figure.vertices)).x + 3 : ℤ) : ℚ) :=
                Int.cast_le.mpr hrect.2.2.1
              have hge : (((holeMax (p.hole ++ p.figure.vertices)).x + 3 : ℤ) :
                  ℚ) ≤ ((mx.x : ℤ) : ℚ) := by
                rw [← hsx]
                exact hlz'.2.1
              exact_mod_cast le_antisymm hle hge
            have hcx : (ptAt s' lI).x = (toQ mx).x := by
              rw [hsx]
              show (((holeMax (p.hole ++ p.figure.vertices)).x + 3 : ℤ) : ℚ) =
                ((mx.x : ℤ) : ℚ)
              exact_mod_cast hmxx.symm
            have hltQ : (toQ mn).y < (toQ mx).y := by
              show ((mn.y : ℤ) : ℚ) < ((mx.y : ℤ) : ℚ)
              exact_mod_cast (by omega : mn.y < mx.y)
            have hmemR : SegMem (ptAt s' lI)
                (nodeEdgeRight (toQ mn) (toQ mx)) :=
              mem_right_edge (toQ mn) (toQ mx) _ hcx hlz'.2.2.1 hlz'.2.2.2 hltQ
            have hne : ptAt s' lI ≠ corner := by
              rw [hwc]
              intro hc
              have hwx : (holeMax (p.hole ++ p.figure.vertices)).x + 3 = w.x := by
                have hceq : (ptAt s' lI).x = ((w.x : ℤ) : ℚ) := by
                  rw [hc]
                  rfl
                rw [hsx] at hceq
                exact_mod_cast hceq
              omega
            exact edge_entry_contra (toSeg a b)
              (nodeEdgeRight (toQ mn) (toQ mx)) _ corner hcs hmemR pr2 hne
          · have hsx : (ptAt s' lI).y =
                (((holeMin (p.hole ++ p.figure.vertices)).y - 2 : ℤ) : ℚ) := by
              rw [hside, rectLo_eq, hrm1]
              rfl
            have hmny : mn.y = (holeMin (p.hole ++ p.figure.vertices)).y - 2 := by
              have hle : (((holeMin (p.hole ++ p.figure.vertices)).y - 2 : ℤ) :
                  ℚ) ≤ ((mn.y : ℤ) : ℚ) := Int.cast_le.mpr hrect.2.1
              have hge : ((mn.y : ℤ) : ℚ) ≤
                  (((holeMin (p.hole ++ p.figure.vertices)).y - 2 : ℤ) : ℚ) := by
                rw [← hsx]
                exact hlz'.2.2.1
              exact_mod_cast le_antisymm hge hle
            have hcy : (ptAt s' lI).y = (toQ mn).y := by
              rw [hsx]
              show (((holeMin (p.hole ++ p.figure.vertices)).y - 2 : ℤ) : ℚ) =
                ((mn.y : ℤ) : ℚ)
              exact_mod_cast hmny.symm
            have hltQ : (toQ mn).x < (toQ mx).x := by
              show ((mn.x : ℤ) : ℚ) < ((mx.x : ℤ) : ℚ)
              exact_mod_cast (by omega : mn.x < mx.x)
            have hmemU : SegMem (ptAt s' lI)
                (nodeEdgeUpper (toQ mn) (toQ mx)) :=
              mem_upper_edge (toQ mn) (toQ mx) _ hcy hlz'.1 hlz'.2.1 hltQ
            have hne : ptAt s' lI ≠ corner := by
              rw [hwc]
              intro hc
              have hwy : (holeMin (p.hole ++ p.figure.vertices)).y - 2 = w.y := by
                have hceq : (ptAt s' lI).y = ((w.y : ℤ) : ℚ) := by
                  rw [hc]
                  rfl
                rw [hsx] at hceq
                exact_mod_cast hceq
              omega
            exact edge_entry_contra (toSeg a b)
              (nodeEdgeUpper (toQ mn) (toQ mx)) _ corner hcs hmemU pu hne
          · have hsx : (ptAt s' lI).y =
                (((holeMax (p.hole ++ p.figure.vertices)).y + 3 : ℤ) : ℚ) := by
              rw [hside, rectHi_eq, hrm2]
              rfl
            have hmxy : mx.y = (holeMax (p.hole ++ p.figure.vertices)).y + 3 := by
              have hle : ((mx.y : ℤ) : ℚ) ≤
                  (((holeMax (p.hole ++ p.figure.vertices)).y + 3 : ℤ) : ℚ) :=
                Int.cast_le.mpr hrect.2.2.2
              have hge : (((holeMax (p.hole ++ p.figure.vertices)).y + 3 : ℤ) :
                  ℚ) ≤ ((mx.y : ℤ) : ℚ) := by
                rw [← hsx]
                exact hlz'.2.2.2
              exact_mod_cast le_antisymm hle hge
            have hcy : (ptAt s' lI).y = (toQ mx).y := by
              rw [hsx]
              show (((holeMax (p.hole ++ p.figure.vertices)).y + 3 : ℤ) : ℚ) =
                ((mx.y : ℤ) : ℚ)
              exact_mod_cast hmxy.symm
            have hltQ : (toQ mn).x < (toQ mx).x := by
              show ((mn.x : ℤ) : ℚ) < ((mx.x : ℤ) : ℚ)
              exact_mod_cast (by omega : mn.x < mx.x)
            have hmemB : SegMem (ptAt s' lI)
                (nodeEdgeBottom (toQ mn) (toQ mx)) :=
              mem_bottom_edge (toQ mn) (toQ mx) _ hcy hlz'.1 hlz'.2.1 hltQ
            have hne : ptAt s' lI ≠ corner := by
              rw [hwc]
              intro hc
              have hwy : (holeMax (p.hole ++ p.figure.vertices)).y + 3 = w.y := by
                have hceq : (ptAt s' lI).y = ((w.y : ℤ) : ℚ) := by
                  rw [hc]
                  rfl
                rw [hsx] at hceq
                exact_mod_cast hceq
              omega
            exact edge_entry_contra (toSeg a b)
              (nodeEdgeBottom (toQ mn) (toQ mx)) _ corner hcs hmemB pb hne
    rcases hout with hofa | hofb
    · exact hcore (toSeg a b) a (Or.inl rfl) (by rw [ptAt_zero]; rfl) hofa
    · exact hcore ⟨(toSeg a b).stop, (toSeg a b).start⟩ b (Or.inr rfl)
        (by rw [ptAt_zero]; rfl) hofb
  · intro hq2
    unfold GeoHoleQuadTree.is_edge_invalid
    rw [hq2]
  · intro hq2
    unfold GeoHoleQuadTree.is_edge_invalid
    rw [hq2]
  · intro hq2
    unfold GeoHoleQuadTree.is_edge_invalid
    rw [hq2]
  · intro hq2
    unfold GeoHoleQuadTree.is_edge_invalid
    rw [hq2, htg]

/-- C2 (witness): the contract theorem instantiated on the degenerate
problem with its sound degenerate geometry parameters: construction succeeds
and the far out-of-range query `(50,50)-(50,50)` is reported invalid. -/
theorem c2_quad_tree_contract_witness :
    ∃ t : GeoHoleQuadTree,
      GeoHoleQuadTree.new degenRelate degenUnit degenProblem = .ok t ∧
      inFieldRange degenProblem ⟨50, 50⟩ = false ∧
      t.is_edge_invalid ⟨50, 50⟩ ⟨50, 50⟩ = true := by
  have hsome := quad_tree_build_isSome degenRelate degenUnit 10
    ⟨-2, -2⟩ ⟨3, 3⟩ (by decide) (by decide) (by decide)
  obtain ⟨root, hroot⟩ := Option.isSome_iff_exists.mp hsome
  have hnew : GeoHoleQuadTree.new degenRelate degenUnit degenProblem =
      .ok { root := root, geo_hole := degenProblem.hole } := by
    unfold GeoHoleQuadTree.new
    rw [if_neg (by decide), if_neg (by decide)]
    dsimp only
    rw [show (⟨(holeMin (degenProblem.hole ++ degenProblem.figure.vertices)).x
        - 2, (holeMin (degenProblem.hole ++ degenProblem.figure.vertices)).y
        - 2⟩ : Point) = (⟨-2, -2⟩ : Point) from by decide]
    rw [show (⟨(holeMax (degenProblem.hole ++ degenProblem.figure.vertices)).x
        + 3, (holeMax (degenProblem.hole ++ degenProblem.figure.vertices)).y
        + 3⟩ : Point) = (⟨3, 3⟩ : Point) from by decide]
    rw [hroot]
  refine ⟨_, hnew, by decide, ?_⟩
  have hmain := c2_quad_tree_contract degenRelate degenUnit degenProblem _ hnew
    (by
      intro mn mx hcon z hz
      exfalso
      unfold degenRelate at hcon
      split_ifs at hcon)
    (by
      intro mn mx cs hcell c hc
      exact UnitCellKind.noConfusion hcell)
    ⟨50, 50⟩ ⟨50, 50⟩
  exact hmain.1 (Or.inl (by decide))

end Icfpc
